import Mathlib

/-!
# Verification of the siso pipeline core

A shallow embedding of the core of the siso data-conversion pipeline
(`src/siso`), together with theorems settling the specified properties of:

* `filter/keyzones.py` — `VertexDict`, `ZoneManager`, `KeyZones`;
* `coord.py` — the coordinate-system registry and `conversion_path`;
* `multisource.py` — `MultiSource` step routing;
* `filter/decompose.py` / `filter/recombine.py` — `Decompose`, `Split`,
  `Recombine`;
* `filter/timeslice.py` — `GroupedStep`, `LastTime`.

Numeric data is embedded over `ℚ` (the Python code computes with binary
floating point; all algorithmic structure — comparisons, bisection,
tolerance windows — is preserved exactly, with exact arithmetic).
Fallible operations (Python `assert` failures, `KeyError`, `TypeError`)
are embedded as `Option`-returning functions where `none` models an
exception escaping the call.
-/

namespace Siso

/-- A vertex: an N-dimensional point, as in `siso.typing.Point`
(a tuple of floats; embedded as a list of exact rationals). -/
abbrev Point := List ℚ

/-! ## VertexDict (`src/siso/filter/keyzones.py`, lines 88–173)

`VertexDict` is a mapping from points to values that is tolerant of
floating-point noise.  Internal state:

* `_keys : List[Optional[Point]]`, `_values : List[Optional[Q]]` —
  parallel entry lists; a `None` key is a tombstone left by deletion;
* `lut : Dict[int, List[Tuple[int, float]]]` — for each coordinate axis, a
  list of `(entry_index, coordinate_value)` pairs kept sorted by value
  (embedded as a list indexed by axis; axes absent from the Python dict
  correspond to positions past the end of the list, and both read as `[]`).
-/

structure VertexDict (Q : Type) where
  rtol : ℚ
  atol : ℚ
  keys : List (Option Point)
  values : List (Option Q)
  lut : List (List (Nat × ℚ))
deriving DecidableEq

/-- Default `rtol = 1e-5` from `VertexDict.__init__`. -/
def defaultRtol : ℚ := 1 / 100000

/-- Default `atol = 1e-8` from `VertexDict.__init__`. -/
def defaultAtol : ℚ := 1 / 100000000

/-- Constructor `VertexDict()` with explicit tolerances. -/
def VertexDict.mkEmpty (Q : Type) (rtol atol : ℚ) : VertexDict Q :=
  ⟨rtol, atol, [], [], []⟩

/-- Reading `self.lut.setdefault(coord, [])`: the per-axis sorted list,
`[]` when the axis has no entries yet.  (In `_candidate` the Python
`setdefault` also stores the empty list in the dict; that write is
observationally irrelevant, since a missing axis and an empty list behave
identically everywhere.) -/
def VertexDict.lutGet {Q : Type} (d : VertexDict Q) (coord : Nat) : List (Nat × ℚ) :=
  d.lut.getD coord []

/-- Embeds `bisect.bisect_left(lut, x, key=itemgetter(1))`: on a list sorted by
second component, the index of the first element whose value is `≥ x` —
equivalently (and this is how we express it) the length of the longest
prefix of values `< x`. -/
def bisectLeft (l : List (Nat × ℚ)) (x : ℚ) : Nat :=
  (l.takeWhile (fun q => decide (q.2 < x))).length

/-- Embeds `bisect.insort(lut, p, key=itemgetter(1))`: insert `p` into a list
sorted by second component, after any elements of equal value
(`insort` = `insort_right`). -/
def insortRight (l : List (Nat × ℚ)) (p : Nat × ℚ) : List (Nat × ℚ) :=
  match l with
  | [] => [p]
  | q :: rest => if p.2 < q.2 then p :: q :: rest else q :: insortRight rest p

/-- Method `VertexDict._bounds` (lines 104–120): the half-open search window
`[lo, hi)` for one coordinate, with three branches for
positive / negative / near-zero keys. -/
def VertexDict.bounds {Q : Type} (d : VertexDict Q) (key : ℚ) : ℚ × ℚ :=
  if d.atol ≤ key then
    ((key - d.atol) / (1 + d.rtol), (key + d.atol) / (1 - d.rtol))
  else if key ≤ -d.atol then
    ((key - d.atol) / (1 - d.rtol), (key + d.atol) / (1 + d.rtol))
  else
    ((key - d.atol) / (1 - d.rtol), (key + d.atol) / (1 - d.rtol))

/-- The slice `lut[lo:hi]` of one axis list taken in `_candidate`, with
`lo`/`hi` the bisection points of the window bounds. -/
def VertexDict.axisSlice {Q : Type} (d : VertexDict Q) (coord : Nat) (k : ℚ) :
    List (Nat × ℚ) :=
  let lut := d.lutGet coord
  let b := d.bounds k
  (lut.take (bisectLeft lut b.2)).drop (bisectLeft lut b.1)

/-- A Python `set` of small integers, embedded as a duplicate-free list.
All set operations below preserve freedom from duplicates, so the length
is the cardinality. -/
abbrev KeySet := List Nat

/-- Python `set.add` (in-place union with a singleton). -/
def KeySet.push (s : KeySet) (k : Nat) : KeySet :=
  if k ∈ s then s else s ++ [k]

/-- Set comprehension `{i for i, _ in lut[lo:hi]}`: the entry indices in one axis window. -/
def VertexDict.axisCandidates {Q : Type} (d : VertexDict Q) (coord : Nat) (k : ℚ) :
    KeySet :=
  ((d.axisSlice coord k).map Prod.fst).dedup

/-- The candidate accumulation loop of `VertexDict._candidate`
(lines 122–138): `candidates` starts as `None` and is intersected with the
index set of each axis window in turn; `none` at the end (a
zero-dimensional key) raises `KeyError` in the caller. -/
def VertexDict.candidateSet {Q : Type} (d : VertexDict Q) (key : Point) :
    Option KeySet :=
  key.enum.foldl
    (fun acc ck =>
      let s := d.axisCandidates ck.1 ck.2
      match acc with
      | none => some s
      | some t => some (t.inter s))
    none

/-- Test `self._keys[c] is not None`: entry `c` is live (not a tombstone). -/
def VertexDict.isLive {Q : Type} (d : VertexDict Q) (c : Nat) : Bool :=
  (d.keys.getD c none).isSome

/-- The first live element of a candidate set.  The Python
`for c in candidates` iterates a `set` in an order that is formally
unspecified; CPython iterates a small set of small non-negative integers
in increasing order, and we adopt that: the least live candidate. -/
def KeySet.firstLive (live : Nat → Bool) (s : KeySet) : Option Nat :=
  s.foldl
    (fun acc c =>
      if live c then
        match acc with
        | none => some c
        | some b => some (min b c)
      else acc)
    none

/-- Method `VertexDict._candidate`: some live entry index whose stored point lies
in the search window of `key` on every axis; `none` models the `KeyError`
raised when no live candidate remains. -/
def VertexDict.candidate {Q : Type} (d : VertexDict Q) (key : Point) : Option Nat :=
  match d.candidateSet key with
  | none => none
  | some s => s.firstLive (fun c => d.isLive c)

/-- Write list element `coord`, padding with `[]` (dict-write on an axis
index possibly not yet present). -/
def lutSet (lut : List (List (Nat × ℚ))) (coord : Nat) (x : List (Nat × ℚ)) :
    List (List (Nat × ℚ)) :=
  match lut, coord with
  | [], 0 => [x]
  | [], n + 1 => [] :: lutSet [] n x
  | _ :: t, 0 => x :: t
  | h :: t, n + 1 => h :: lutSet t n x

/-- Method `VertexDict._insert` (lines 140–146): append a fresh live entry and
insort its coordinates into every axis list. -/
def VertexDict.insertNew {Q : Type} (d : VertexDict Q) (key : Point) (value : Q) :
    VertexDict Q :=
  let newindex := d.values.length
  let lut := key.enum.foldl
    (fun lut cv => lutSet lut cv.1 (insortRight (lut.getD cv.1 []) (newindex, cv.2)))
    d.lut
  { d with lut := lut, keys := d.keys ++ [some key], values := d.values ++ [some value] }

/-- Method `VertexDict.__setitem__`: overwrite the candidate's value, or insert a
new entry when the candidate lookup raises. -/
def VertexDict.setItem {Q : Type} (d : VertexDict Q) (key : Point) (value : Q) :
    VertexDict Q :=
  match d.candidate key with
  | some c => { d with values := d.values.set c (some value) }
  | none => d.insertNew key value

/-- Method `Mapping.get(key, default)`, built from `VertexDict.__getitem__`:
the candidate's stored value, or `default` when the lookup raises.
(`_candidate` guarantees the entry is live; a live entry always carries a
value, so the inner `getD` never actually supplies the default.) -/
def VertexDict.getD {Q : Type} (d : VertexDict Q) (key : Point) (dflt : Q) : Q :=
  match d.candidate key with
  | some c => (d.values.getD c none).getD dflt
  | none => dflt

/-- Method `VertexDict.__delitem__` (lines 159–165): tombstone the candidate
entry; a failed lookup is swallowed. -/
def VertexDict.delItem {Q : Type} (d : VertexDict Q) (key : Point) : VertexDict Q :=
  match d.candidate key with
  | some i => { d with keys := d.keys.set i none, values := d.values.set i none }
  | none => d

/-- Method `VertexDict.__iter__` (lines 167–170): the live stored keys, in entry
order. -/
def VertexDict.iterKeys {Q : Type} (d : VertexDict Q) : List Point :=
  d.keys.filterMap id

/-- Method `VertexDict.__len__` (lines 172–173): `len(self._values)` — the number
of entries ever inserted, tombstones included. -/
def VertexDict.len {Q : Type} (d : VertexDict Q) : Nat :=
  d.values.length

/-! ## ZoneManager and KeyZones (`src/siso/filter/keyzones.py`, lines 23–82) -/

/-- Zone shapes.  Modelled from the spec: `siso.zone`/`siso.api.Shape` is
not under `src/`; §3 of the spec fixes `shape ∈ {Line, Quadrilateral,
Hexahedron}`. -/
inductive Shape where
  | Line
  | Quadrilateral
  | Hexahedron
deriving DecidableEq

/-- A zone.  Modelled from the spec: the `Zone` record itself
(`siso.zone`) is not under `src/`; §3 of the spec and the construction
site in `ZoneManager.lookup` fix its fields: shape, ordered corner
points, source-local key, optional global key. -/
structure Zone where
  shape : Shape
  coords : List Point
  local_key : String
  global_key : Option Nat
deriving DecidableEq

/-- Lookup in `Dict[int, Shape]` (first binding wins; keys are unique in all
reachable states). -/
def shapesFind (shapes : List (Nat × Shape)) (k : Nat) : Option Shape :=
  (shapes.find? (fun p => p.1 == k)).map Prod.snd

/-- State of `ZoneManager`: the corner-vertex dictionary mapping points to sets of
global keys, and the table of shapes recorded per minted key (a dict,
embedded as an insertion-ordered association list). -/
structure ZoneManager where
  lut : VertexDict KeySet
  shapes : List (Nat × Shape)
deriving DecidableEq

/-- Constructor `ZoneManager.__init__`. -/
def ZoneManager.fresh : ZoneManager :=
  ⟨VertexDict.mkEmpty KeySet defaultRtol defaultAtol, []⟩

/-- Embeds `reduce(lambda x, y: x & y, (self.lut.get(pt, set()) for pt in
zone.coords))`: `none` models the `TypeError` that `reduce` raises on an
empty corner list. -/
def ZoneManager.cornerKeys (m : ZoneManager) (coords : List Point) :
    Option KeySet :=
  match coords.map (fun pt => m.lut.getD pt []) with
  | [] => none
  | s :: rest => some (rest.foldl (fun x y => x.inter y) s)

/-- Embeds `self.lut.setdefault(pt, set()).add(key)`: add `key` to the existing
entry's set when the point matches one, else insert a fresh entry with
the singleton set. -/
def ZoneManager.registerCorner (d : VertexDict KeySet) (pt : Point) (key : Nat) :
    VertexDict KeySet :=
  match d.candidate pt with
  | some c => { d with values := d.values.set c (some (((d.values.getD c none).getD []).push key)) }
  | none => d.insertNew pt [key]

/-- Method `ZoneManager.lookup` (lines 58–82).  `none` models an escaping
exception: a failed `assert`, a `KeyError` from `self.shapes[...]`, or the
`TypeError` of `reduce` on a cornerless zone. -/
def ZoneManager.lookup (m : ZoneManager) (zone : Zone) : Option (Zone × ZoneManager) :=
  match zone.global_key with
  | some k =>
    -- `assert self.shapes[zone.global_key] == zone.shape`
    if shapesFind m.shapes k = some zone.shape then some (zone, m) else none
  | none =>
    match m.cornerKeys zone.coords with
    | none => none
    | some keys =>
      if 2 ≤ keys.length then none  -- `assert len(keys) < 2`
      else
        match keys with
        | key :: _ =>
          -- `key = next(iter(keys))` (the set is a singleton here);
          -- `assert self.shapes[key] == zone.shape`
          if shapesFind m.shapes key = some zone.shape then
            some ({ zone with global_key := some key }, m)
          else none
        | [] =>
          let key := m.shapes.length
          -- `assert key not in self.shapes`
          if (shapesFind m.shapes key).isSome then none
          else
            some ({ zone with global_key := some key },
              { lut := zone.coords.foldl (fun d pt => ZoneManager.registerCorner d pt key) m.lut,
                shapes := m.shapes ++ [(key, zone.shape)] })

/-- Draining `KeyZones.zones()` (lines 39–41): each zone yielded by the
source is fed through `self.manager.lookup`, threading the manager state;
`none` models an exception escaping from some lookup. -/
def ZoneManager.lookupMany (m : ZoneManager) (zs : List Zone) :
    Option (List Zone × ZoneManager) :=
  match zs with
  | [] => some ([], m)
  | z :: rest =>
    match m.lookup z with
    | none => none
    | some (z1, m1) =>
      match m1.lookupMany rest with
      | none => none
      | some (zs1, m2) => some (z1 :: zs1, m2)

/-- Source capability flags (`siso.api.SourceProperties`; the fields used
by the claims under study). -/
structure SourceProperties where
  instantaneous : Bool
  globally_keyed : Bool := false
deriving DecidableEq

/-- Precondition check `KeyZones.validate_source` (lines 30–31):
`assert not self.source.properties.globally_keyed`.  Returns whether the
construction of the filter succeeds. -/
def keyZonesValidateSource (sourceProps : SourceProperties) : Bool :=
  !sourceProps.globally_keyed

/-- Property update performed by `KeyZones.properties` (lines 33–37):
the wrapped source's properties with `globally_keyed=True`. -/
def keyZonesProperties (sourceProps : SourceProperties) : SourceProperties :=
  { sourceProps with globally_keyed := true }

/-- Result of draining `KeyZones.zones()` over a freshly-constructed
filter (the constructor makes a new `ZoneManager`). -/
def keyZonesDrain (sourceZones : List Zone) : Option (List Zone × ZoneManager) :=
  ZoneManager.fresh.lookupMany sourceZones

/-! ## Coordinate systems and the conversion-path planner (`src/siso/coord.py`) -/

/-- Ellipsoids (`coord.py`, lines 141–190).  The two numeric parameters of
`SphericalEarth` are `flattening` and `semi_major_axis`; the ERFA-backed
ellipsoids are distinguished by tag (their numeric data is opaque here). -/
inductive Ellipsoid where
  | SphericalEarth (flattening : ℚ) (semi_major_axis : ℚ)
  | Wgs84
  | Grs80
  | Wgs72
deriving DecidableEq

/-- Coordinate systems (`coord.py`, lines 28–138): the tagged variants
`Generic`, `Named(identifier)`, `Geodetic(ellipsoid)`,
`Utm(zone_number, zone_letter)`, `Geocentric`.  Equality is the
attrs-generated field equality. -/
inductive CoordinateSystem where
  | Generic
  | Named (identifier : String)
  | Geodetic (ellipsoid : Ellipsoid)
  | Utm (zone_number : Int) (zone_letter : String)
  | Geocentric
deriving DecidableEq

/-- Class attribute `name` of each system (the graph node key). -/
def CoordinateSystem.name : CoordinateSystem → String
  | .Generic => "Generic"
  | .Named _ => "Named"
  | .Geodetic _ => "Geodetic"
  | .Utm _ _ => "UTM"
  | .Geocentric => "Geocentric"

/-- The `NEIGHBORS` table as populated at import time by the three
`@register_coords` decorators at the bottom of `coord.py`, in source
order: `Geodetic→Geocentric`, `Geodetic→Utm`, `Utm→Geodetic`. -/
def NEIGHBORS : List (String × List String) :=
  [("Geodetic", ["Geocentric", "UTM"]), ("UTM", ["Geodetic"])]

/-- Read `NEIGHBORS.get(system, [])`. -/
def neighborsGet (system : String) : List String :=
  ((NEIGHBORS.find? (fun p => p.1 == system)).map Prod.snd).getD []

/-- The key set of `COORD_CONVERTERS` as populated at import time
(`register_coords` inserts the same `(src.name, tgt.name)` pairs it adds
to `NEIGHBORS`). -/
def coordConverterKeys : List (String × String) :=
  [("Geodetic", "Geocentric"), ("Geodetic", "UTM"), ("UTM", "Geodetic")]

/-- Lookup `visited[name]` in the BFS predecessor dict (an association
list with unique keys; insertion is guarded by a membership test). -/
def visitedGet (visited : List (String × String)) (n : String) : Option String :=
  (visited.find? (fun p => p.1 == n)).map Prod.snd

/-- Registry default construction `systems[name].default()` for the
names that can occur as BFS intermediates.  `Named.default` and
`Utm.default` are `assert False` in the source and an unknown name raises
`KeyError`; both are `none` here (and unreachable: the only possible
intermediate node of the registered graph is `"Geodetic"`). -/
def systemsDefault : String → Option CoordinateSystem
  | "Generic" => some .Generic
  | "Geodetic" => some (.Geodetic .Wgs84)
  | "Geocentric" => some .Geocentric
  | _ => none

/-- Inner loop of the BFS in `conversion_path` (lines 252–259): process
the neighbor list of one dequeued node.  Returns `Sum.inr visited` when
`tgt.name` was reached (the Python returns `construct_backpath()` from
inside the loop), else the updated `(visited, queue)`. -/
def bfsVisit (srcName tgtName system : String) :
    List String → List (String × String) → List String →
    Sum (List (String × String) × List String) (List (String × String))
  | [], visited, queue => Sum.inl (visited, queue)
  | nb :: rest, visited, queue =>
    if (visitedGet visited nb).isSome || nb == srcName then
      bfsVisit srcName tgtName system rest visited queue
    else
      let visited1 := visited ++ [(nb, system)]
      if nb == tgtName then Sum.inr visited1
      else bfsVisit srcName tgtName system rest visited1 (queue ++ [nb])

/-- Outer loop of the BFS: `while queue: system = queue.popleft(); ...`.
The loop terminates because every name is enqueued at most once; the
explicit fuel is an upper bound on iterations and never runs out when it
is at least `1 + ` the number of graph nodes (for the registered
5-name graph, any fuel `≥ 6`). -/
def bfsLoop (srcName tgtName : String) :
    Nat → List (String × String) → List String → Option (List (String × String))
  | 0, _, _ => none
  | fuel + 1, visited, queue =>
    match queue with
    | [] => none
    | system :: queue =>
      match bfsVisit srcName tgtName system (neighborsGet system) visited queue with
      | Sum.inr visited1 => some visited1
      | Sum.inl (visited1, queue1) => bfsLoop srcName tgtName fuel visited1 queue1

/-- The predecessor-chain walk of `construct_backpath` (lines 240–246):
from `name = visited[tgt.name]` back to (and excluding) `src.name`,
collecting intermediate names nearest-target-first.  `none` models the
`KeyError` of a broken chain (unreachable: `visited` always chains back
to `src.name`); the fuel bounds the chain length by `visited`'s size. -/
def backNames (visited : List (String × String)) (srcName : String) :
    Nat → String → Option (List String)
  | 0, _ => none
  | fuel + 1, name =>
    if name == srcName then some []
    else
      match visitedGet visited name with
      | none => none
      | some next => (backNames visited srcName fuel next).map (fun l => name :: l)

/-- Test `isinstance(src, (Generic, Named))`. -/
def CoordinateSystem.genericOrNamed : CoordinateSystem → Bool
  | .Generic => true
  | .Named _ => true
  | _ => false

/-- Test `isinstance(tgt, Generic)`. -/
def CoordinateSystem.isGeneric : CoordinateSystem → Bool
  | .Generic => true
  | _ => false

/-- Function `conversion_path(src, tgt)` (lines 232–260): empty path when
`src == tgt` or when a Generic/Named source meets a Generic target; else
BFS over `NEIGHBORS` from `src.name`, skipping `src.name` itself; on
reaching `tgt.name`, the reconstructed path
`[src, intermediate defaults..., tgt]`; `None` when the queue empties.
The fuel value 16 exceeds the bound needed for the registered graph. -/
def conversion_path (src tgt : CoordinateSystem) : Option (List CoordinateSystem) :=
  if src = tgt then some []
  else if src.genericOrNamed && tgt.isGeneric then some []
  else
    match bfsLoop src.name tgt.name 16 [] [src.name] with
    | none => none
    | some visited =>
      match visitedGet visited tgt.name with
      | none => none
      | some n1 =>
        match backNames visited src.name 16 n1 with
        | none => none
        | some names =>
          match names.reverse.mapM systemsDefault with
          | none => none
          | some mids => some (src :: (mids ++ [tgt]))

/-- One registered conversion step between system names: the pair is a
key of `COORD_CONVERTERS`. -/
def ConvEdge (a b : String) : Prop :=
  (a, b) ∈ coordConverterKeys

/-- A (possibly empty) sequence of registered converters leading from one
system name to another — the spec-side notion of reachability that claim
C3 quantifies over. -/
def ConvChain (a b : String) : Prop :=
  Relation.ReflTransGen ConvEdge a b

/-! ## FieldData (interface used by `decompose.py` / `recombine.py`)

Modelled from the spec: `siso.util.FieldData` is not under `src/`.
Spec §3/§4.1 fix the contracts used here: a 2-D numeric buffer
(rows = entities, columns = components); `slice(idxs)` selects component
columns preserving the row count; `concat` joins component-wise
(equal row counts, summed component counts). -/

structure FieldData where
  rows : List (List ℚ)
deriving DecidableEq

/-- Modelled from the spec: `FieldData.slice(idxs)` selects the given
component columns of every row. -/
def FieldData.slice (fd : FieldData) (idxs : List Nat) : FieldData :=
  ⟨fd.rows.map (fun row => idxs.map (fun i => row.getD i 0))⟩

/-- Horizontal (component-axis) concatenation of two buffers with equal
row count. -/
def FieldData.hcat (a b : FieldData) : FieldData :=
  ⟨List.zipWith (fun r s => r ++ s) a.rows b.rows⟩

/-- Modelled from the spec: `FieldData.concat(xs)` — horizontal
concatenation of a sequence of buffers with equal row counts. -/
def FieldData.concat (fds : List FieldData) : FieldData :=
  match fds with
  | [] => ⟨[]⟩
  | f :: fs => fs.foldl FieldData.hcat f

/-! ## Field types and fields (`src/siso/api.py`, lines 94–262) -/

/-- Scalar field interpretations (`api.py`, lines 94–102). -/
inductive ScalarInterpretation where
  | Generic
  | Eigenmode
deriving DecidableEq

/-- Vector field interpretations (`api.py`, lines 105–122). -/
inductive VectorInterpretation where
  | Generic
  | Displacement
  | Eigenmode
  | Flow
deriving DecidableEq

/-- Method `ScalarInterpretation.to_vector`. -/
def ScalarInterpretation.to_vector : ScalarInterpretation → VectorInterpretation
  | .Eigenmode => .Eigenmode
  | .Generic => .Generic

/-- Method `VectorInterpretation.to_scalar`. -/
def VectorInterpretation.to_scalar : VectorInterpretation → ScalarInterpretation
  | .Eigenmode => .Eigenmode
  | _ => .Generic

/-- Field types (`api.py`): `Scalar(interp) | Vector(ncomps, interp) |
Geometry(ncomps, coords)`. -/
inductive FieldType where
  | Scalar (interpretation : ScalarInterpretation)
  | Vector (ncomps : Nat) (interpretation : VectorInterpretation)
  | Geometry (ncomps : Nat) (coords : CoordinateSystem)
deriving DecidableEq

/-- Method `type.slice()`: a scalar slices to itself, a vector to a
scalar carrying `to_scalar` of its interpretation; `Geometry.slice` is
`assert False` (`none`). -/
def FieldType.slice : FieldType → Option FieldType
  | .Scalar i => some (.Scalar i)
  | .Vector _ i => some (.Scalar i.to_scalar)
  | .Geometry _ _ => none

/-- A source field as consumed by the decompose/recombine filters:
`{name, type, cellwise, splittable}` (`api.py`, class `Field`). -/
structure Field where
  name : String
  type : FieldType
  cellwise : Bool
  splittable : Bool
deriving DecidableEq

/-- Property `Field.is_scalar`. -/
def Field.is_scalar (f : Field) : Bool :=
  match f.type with
  | .Scalar _ => true
  | _ => false

/-- Property `Field.ncomps`: 1 for scalars, else the type's `ncomps`. -/
def Field.ncomps (f : Field) : Nat :=
  match f.type with
  | .Scalar _ => 1
  | .Vector n _ => n
  | .Geometry n _ => n

/-! ## Decompose and Split (`src/siso/filter/decompose.py`) -/

/-- Record `DecomposedField` (lines 18–32): a wrapped source field with an
optional component-index list and a fresh name. -/
structure DecomposedField where
  wrapped_field : Field
  components : Option (List Nat)
  splittable : Bool
  name : String
deriving DecidableEq

/-- Property `DecomposedField.type` (lines 25–32): with a multi-component
list, the wrapped vector type resized (`none` models the failing
`assert isinstance(..., api.Vector)`); with a singleton list, the wrapped
type sliced; with no list, the wrapped type unchanged. -/
def DecomposedField.type (f : DecomposedField) : Option FieldType :=
  match f.components with
  | some comps =>
    if 1 < comps.length then
      match f.wrapped_field.type with
      | .Vector _ i => some (.Vector comps.length i)
      | _ => none
    else f.wrapped_field.type.slice
  | none => some f.wrapped_field.type

/-- Property `ncomps` of a decomposed field (via `Field.ncomps` on the
computed type): 1 for scalars. -/
def DecomposedField.ncomps (f : DecomposedField) : Option Nat :=
  (f.type).map (fun t =>
    match t with
    | .Scalar _ => 1
    | .Vector n _ => n
    | .Geometry n _ => n)

/-- Method `DecomposeBase.field_data` (lines 46–50): the wrapped field's
data from the inner source, column-sliced when a component list is
present.  `inner` is the inner source's `field_data` for the fixed
timestep and zone. -/
def decomposeFieldData (inner : Field → FieldData) (f : DecomposedField) : FieldData :=
  match f.components with
  | some comps => (inner f.wrapped_field).slice comps
  | none => inner f.wrapped_field

/-- Method `Decompose.fields` (lines 56–64): every source field passes
through undecomposed; a splittable non-scalar additionally yields one
single-component field per `zip(range(ncomps), "xyz")`, named
`{name}_{suffix}`. -/
def decomposeFields (fields : List Field) : List DecomposedField :=
  fields.flatMap (fun field =>
    ⟨field, none, false, field.name⟩ ::
      (if field.is_scalar || !field.splittable then []
       else ((List.range field.ncomps).zip ["x", "y", "z"]).map
         (fun p => ⟨field, some [p.1], false, field.name ++ "_" ++ p.2⟩)))

/-! ## Recombine (`src/siso/filter/recombine.py`) -/

/-- Record `RecombinedField` (lines 13–34): a list of source fields and a
name. -/
structure RecombinedField where
  sources : List DecomposedField
  name : String
deriving DecidableEq

/-- Construction of a `RecombinedField` as executed: the attrs `@define`
decorator generates an `__init__` that calls `__attrs_post_init__` when
present; the class defines `__post_init__` (the dataclasses hook name),
which attrs never invokes, so no validation runs and construction always
succeeds. -/
def RecombinedField.make (name : String) (sources : List DecomposedField) :
    RecombinedField :=
  ⟨sources, name⟩

/-- The validation written in `RecombinedField.__post_init__`
(lines 17–19): all sources agree with `sources[0]` on `cellwise` and on
`type`.  `none` models the `IndexError` on an empty source list;
`some false` means the asserts would fail if this hook ever ran. -/
def recombinedFieldPostInit (sources : List DecomposedField) : Option Bool :=
  match sources with
  | [] => none
  | s0 :: _ =>
    some (sources.all (fun src => src.wrapped_field.cellwise == s0.wrapped_field.cellwise)
      && sources.all (fun src => decide (src.type = s0.type)))

/-- Method `Recombine.field_data` (lines 72–73): the horizontal
concatenation of the inner source's data for each source field, in
order.  `inner` is the inner source's `field_data` (here the Split/
Decompose stage) for the fixed timestep and zone. -/
def recombineFieldData (inner : DecomposedField → FieldData)
    (field : RecombinedField) : FieldData :=
  FieldData.concat (field.sources.map inner)

/-! ## MultiSource (`src/siso/multisource.py`) -/

/-- Record `MultiSourceTimeStep` (lines 12–19): a wrapped step carrying
the global index and the inner source's original step. -/
structure MultiStep (S : Type) where
  index : Nat
  original : S
deriving DecidableEq

/-- Draining `MultiSource.timesteps()` (lines 60–67): the inner sources'
steps concatenated in order, wrapped with consecutive global indices.
Each inner source is represented by its list of steps. -/
def multiTimesteps {S : Type} (sources : List (List S)) : List (MultiStep S) :=
  (sources.flatten).enum.map (fun p => ⟨p.1, p.2⟩)

/-- The `maxindex` table after the iteration in `timesteps()` has passed
the end of each source: the cumulative step counts (built lazily in the
source — after the whole prefix of sources containing the step under
discussion has been drained, the relevant prefix of this list is
present). -/
def multiMaxindex {S : Type} (sources : List (List S)) : List Nat :=
  ((sources.map List.length).scanl (· + ·) 0).tail

/-- Embeds `bisect.bisect_left` on a sorted list of naturals. -/
def bisectLeftNat (l : List Nat) (x : Nat) : Nat :=
  (l.takeWhile (fun v => decide (v < x))).length

/-- Method `MultiSource.source_at` (lines 49–51): the position into
`self.sources` selected for a global step index —
`bisect.bisect_left(self.maxindex, index)`. -/
def source_at {S : Type} (sources : List (List S)) (index : Nat) : Nat :=
  bisectLeftNat (multiMaxindex sources) index

/-- The inner source that actually yielded global step index `g`: the
`i` with `c_(i-1) ≤ g < c_i` in cumulative counts.  This is the
specification-side notion of the originating source. -/
def originOf {S : Type} : List (List S) → Nat → Option Nat :=
  let rec go : List (List S) → Nat → Nat → Option Nat
    | [], _, _ => none
    | src :: rest, g, i =>
      if g < src.length then some i else go rest (g - src.length) (i + 1)
  fun sources g => go sources g 0

/-- Methods `MultiSource.topology` / `field_data` (lines 71–78): route to
`self.sources[self.source_at(t.index)]`, passing `t.original`.  The
result records which source position receives the call and with which
inner step (`none` models an out-of-range list index). -/
def multiForward {S : Type} (sources : List (List S)) (t : MultiStep S) :
    Option (Nat × S) :=
  if source_at sources t.index < sources.length then
    some (source_at sources t.index, t.original)
  else none

/-! ## Time grouping (`src/siso/filter/timeslice.py`) -/

/-- Record `GroupedStep` (lines 62–69). -/
structure GroupedStep (S : Type) where
  index : Nat
  steps : List S
deriving DecidableEq

/-- Method `LastTime.steps` (lines 99–106): collect all source steps into
a single group with index 0. -/
def lastTimeSteps {S : Type} (sourceSteps : List S) : List (GroupedStep S) :=
  [⟨0, sourceSteps⟩]

/-- Methods `GroupedTimeSource.topology` / `field_data` (lines 77–81):
forward to the inner source at `step.steps[-1]` (`none` models the
`IndexError` on an empty group). -/
def groupedLastMember {S : Type} (step : GroupedStep S) : Option S :=
  step.steps.getLast?

/-! ## Supporting lemmas for FieldData -/

/-- Slicing twice concatenates column selections: the horizontal
concatenation of two column slices of the same buffer is the slice by the
concatenated index lists. -/
theorem FieldData.hcat_slice (fd : FieldData) (a b : List Nat) :
    FieldData.hcat (fd.slice a) (fd.slice b) = fd.slice (a ++ b) := by
  unfold FieldData.hcat FieldData.slice
  congr 1
  induction fd.rows with
  | nil => rfl
  | cons r rs ih => simp [ih]

/-- Folding `hcat` over slices of one buffer slices by the flattened
index lists. -/
theorem FieldData.foldl_hcat_slices (fd : FieldData) (acc : List Nat)
    (css : List (List Nat)) :
    (css.map (fun cs => fd.slice cs)).foldl FieldData.hcat (fd.slice acc)
      = fd.slice (acc ++ css.flatten) := by
  induction css generalizing acc with
  | nil => simp
  | cons c rest ih =>
    simp only [List.map_cons, List.foldl_cons, FieldData.hcat_slice, List.flatten_cons]
    rw [ih, List.append_assoc]

/-- Selecting the columns `0, …, len−1` of a row reproduces the row. -/
theorem map_range_getD (row : List ℚ) :
    (List.range row.length).map (fun i => row.getD i 0) = row := by
  induction row with
  | nil => rfl
  | cons a t ih =>
    rw [List.length_cons, List.range_succ_eq_map, List.map_cons, List.map_map]
    simp only [Function.comp_def, List.getD_cons_succ, List.getD_cons_zero]
    rw [ih]

/-- Slicing a rectangular buffer by the full column range is the
identity. -/
theorem FieldData.slice_range (fd : FieldData) (n : Nat)
    (h : ∀ row ∈ fd.rows, row.length = n) :
    fd.slice (List.range n) = fd := by
  unfold FieldData.slice
  obtain ⟨rows⟩ := fd
  congr 1
  induction rows with
  | nil => rfl
  | cons r rs ih =>
    have hr : r.length = n := h r (by simp)
    simp only [List.map_cons]
    rw [ih (fun row hrow => h row (by simp [hrow]))]
    congr 1
    rw [← hr]
    exact map_range_getD r

/-- Unfolding lemma: concatenation of a nonempty buffer list is a left
fold of `hcat`. -/
theorem FieldData.concat_cons (x : FieldData) (xs : List FieldData) :
    FieldData.concat (x :: xs) = xs.foldl FieldData.hcat x := rfl

/-! ## Claim C6 -/

/-- C6: Split followed by Recombine with matching specs is the identity
on emitted field data.  For a field `f` with `n` components, when the
split fields carry component lists that together cover `0..n-1` in
order (`css.flatten = range n`) and the recombined field concatenates
exactly those split fields in that order, the recombined `field_data`
equals the original `field_data` of `f` (for the fixed timestep and
zone represented by `inner`). -/
theorem c6_split_recombine_identity (f : Field) (inner : Field → FieldData)
    (n : Nat) (css : List (List Nat)) (nameOf : List Nat → String)
    (sp : List Nat → Bool) (newName : String)
    (hne : css ≠ []) (hcover : css.flatten = List.range n)
    (hrows : ∀ row ∈ (inner f).rows, row.length = n) :
    recombineFieldData (decomposeFieldData inner)
      (RecombinedField.make newName
        (css.map (fun cs => ⟨f, some cs, sp cs, nameOf cs⟩)))
      = inner f := by
  unfold recombineFieldData RecombinedField.make
  simp only [List.map_map]
  have hmap : ∀ cs : List Nat,
      decomposeFieldData inner ⟨f, some cs, sp cs, nameOf cs⟩ = (inner f).slice cs :=
    fun _ => rfl
  obtain ⟨c, rest, rfl⟩ : ∃ c rest, css = c :: rest := by
    cases css with
    | nil => exact absurd rfl hne
    | cons c rest => exact ⟨c, rest, rfl⟩
  have : ((c :: rest).map
      (fun cs => decomposeFieldData inner ⟨f, some cs, sp cs, nameOf cs⟩))
      = (c :: rest).map (fun cs => (inner f).slice cs) := by
    simp [hmap]
  rw [show (List.map (decomposeFieldData inner ∘
        fun cs => (⟨f, some cs, sp cs, nameOf cs⟩ : DecomposedField)) (c :: rest))
      = (c :: rest).map (fun cs => (inner f).slice cs) from this]
  rw [List.map_cons, FieldData.concat_cons, FieldData.foldl_hcat_slices]
  rw [show c ++ rest.flatten = (c :: rest).flatten from rfl, hcover]
  exact FieldData.slice_range _ n hrows

/-- Witness for C6 at a concrete three-component field split as
`[0]` + `[1, 2]`. -/
theorem c6_split_recombine_identity_witness :
    recombineFieldData
      (decomposeFieldData (fun _ => (⟨[[1, 2, 3], [4, 5, 6]]⟩ : FieldData)))
      (RecombinedField.make "combined"
        ([[0], [1, 2]].map
          (fun cs => ⟨⟨"v", .Vector 3 .Generic, false, true⟩, some cs, false, "s"⟩)))
      = (⟨[[1, 2, 3], [4, 5, 6]]⟩ : FieldData) :=
  c6_split_recombine_identity ⟨"v", .Vector 3 .Generic, false, true⟩ _ 3
    [[0], [1, 2]] (fun _ => "s") (fun _ => false) "combined"
    (by decide) (by decide) (by decide)

/-! ## Claim C7 -/

/-- C7: for a splittable vector field with 3 components,
`Decompose.fields` emits the field unchanged plus scalar component
fields named `name_x`, `name_y`, `name_z`, each with `ncomps = 1`, and
the `field_data` of the k-th component field is the k-th column slice of
the original field data. -/
theorem c7_decompose_vector3 (f : Field) (i : VectorInterpretation)
    (inner : Field → FieldData)
    (hty : f.type = .Vector 3 i) (hsp : f.splittable = true) :
    decomposeFields [f] =
      [⟨f, none, false, f.name⟩,
       ⟨f, some [0], false, f.name ++ "_x"⟩,
       ⟨f, some [1], false, f.name ++ "_y"⟩,
       ⟨f, some [2], false, f.name ++ "_z"⟩] ∧
    (∀ k nm, DecomposedField.ncomps ⟨f, some [k], false, nm⟩ = some 1) ∧
    decomposeFieldData inner ⟨f, none, false, f.name⟩ = inner f ∧
    (∀ k nm, decomposeFieldData inner ⟨f, some [k], false, nm⟩
      = (inner f).slice [k]) := by
  obtain ⟨nm, ty, cw, sp⟩ := f
  simp only [Field.splittable] at hsp
  simp only [Field.type] at hty
  subst hsp hty
  refine ⟨?_, fun k fnm => rfl, rfl, fun k fnm => rfl⟩
  simp [decomposeFields, Field.is_scalar, Field.ncomps, List.range_succ,
    String.append_assoc]

/-- The concrete "velocity" field of the C7 witness. -/
def velocityField : Field := ⟨"velocity", .Vector 3 .Flow, false, true⟩

/-- The concrete inner `field_data` of the C7 witness. -/
def velocityData : Field → FieldData := fun _ => ⟨[[7, 8, 9]]⟩

/-- Witness for C7 at a concrete "velocity" field. -/
theorem c7_decompose_vector3_witness :
    decomposeFields [velocityField] =
      [⟨velocityField, none, false, velocityField.name⟩,
       ⟨velocityField, some [0], false, velocityField.name ++ "_x"⟩,
       ⟨velocityField, some [1], false, velocityField.name ++ "_y"⟩,
       ⟨velocityField, some [2], false, velocityField.name ++ "_z"⟩] ∧
    (∀ k nm, DecomposedField.ncomps ⟨velocityField, some [k], false, nm⟩ = some 1) ∧
    decomposeFieldData velocityData ⟨velocityField, none, false, velocityField.name⟩
      = velocityData velocityField ∧
    (∀ k nm, decomposeFieldData velocityData ⟨velocityField, some [k], false, nm⟩
      = (velocityData velocityField).slice [k]) :=
  c7_decompose_vector3 velocityField .Flow velocityData rfl rfl

/-! ## Claim C8 -/

/-- C8: for a source with at least one step, `LastTime.steps()` yields
exactly one grouped step whose member list is all the source's steps in
order, so the member used for topology and field data is the source's
last step; over a MultiSource of two sources with 3 and 4 steps the
single group's member list has length 7. -/
theorem c8_lasttime_single_group {S : Type} (steps : List S) (h : steps ≠ []) :
    (lastTimeSteps steps).length = 1 ∧
    (∀ g ∈ lastTimeSteps steps,
      g.steps = steps ∧ groupedLastMember g = some (steps.getLast h)) ∧
    (∀ a b : List S, a.length = 3 → b.length = 4 →
      (lastTimeSteps (multiTimesteps [a, b])).length = 1 ∧
      ∀ g ∈ lastTimeSteps (multiTimesteps [a, b]), g.steps.length = 7) := by
  refine ⟨rfl, ?_, ?_⟩
  · intro g hg
    have : g = ⟨0, steps⟩ := by simpa [lastTimeSteps] using hg
    subst this
    exact ⟨rfl, List.getLast?_eq_getLast steps h⟩
  · intro a b ha hb
    refine ⟨rfl, ?_⟩
    intro g hg
    have : g = ⟨0, multiTimesteps [a, b]⟩ := by simpa [lastTimeSteps] using hg
    subst this
    simp [multiTimesteps, ha, hb]

/-- Witness for C8 over concrete step lists. -/
theorem c8_lasttime_single_group_witness :
    (lastTimeSteps ["s0", "s1"]).length = 1 ∧
    (∀ g ∈ lastTimeSteps ["s0", "s1"],
      g.steps = ["s0", "s1"] ∧ groupedLastMember g = some ("s1")) ∧
    (∀ a b : List String, a.length = 3 → b.length = 4 →
      (lastTimeSteps (multiTimesteps [a, b])).length = 1 ∧
      ∀ g ∈ lastTimeSteps (multiTimesteps [a, b]), g.steps.length = 7) :=
  c8_lasttime_single_group ["s0", "s1"] (by decide)

/-! ## Claim C9 -/

/-- A nodal scalar field (for the C9 construction). -/
def fieldCellFalse : DecomposedField :=
  ⟨⟨"u", .Scalar .Generic, false, false⟩, none, false, "u"⟩

/-- A cellwise scalar field (for the C9 construction). -/
def fieldCellTrue : DecomposedField :=
  ⟨⟨"v", .Scalar .Generic, true, false⟩, none, false, "v"⟩

/-- C9 (refuting the claim as stated, supporting the code bug): the
attrs-generated constructor of `RecombinedField` performs no validation —
the class defines `__post_init__`, but attrs `@define` only invokes
`__attrs_post_init__`, so the hook is dead code.  Constructing a
recombined field from sources that disagree on `cellwise` succeeds, even
though the check written in `__post_init__` (second conjunct) would have
rejected it. -/
theorem c9_recombine_validation_never_runs :
    RecombinedField.make "combo" [fieldCellTrue, fieldCellFalse]
      = { sources := [fieldCellTrue, fieldCellFalse], name := "combo" } ∧
    recombinedFieldPostInit [fieldCellTrue, fieldCellFalse] = some false :=
  ⟨rfl, by decide⟩

/-! ## Claim C5 -/

/-- The concrete MultiSource of the C5 analysis: two inner sources with
3 and 4 steps. -/
def c5sources : List (List String) := [["a0", "a1", "a2"], ["b0", "b1", "b2", "b3"]]

/-- C5 (refuting the claim as stated, supporting the code bug): the
wrapped step with global index 3 is yielded from inner source 1 (its
step "b0"), but `source_at` — `bisect_left` on the cumulative table
`[3, 7]` — returns 0, so `topology`/`field_data` forward `t.original` to
source 0, not to the source that produced it. -/
theorem c5_source_at_misroutes_boundary :
    (multiTimesteps c5sources).getD 3 ⟨0, "x"⟩ = ⟨3, "b0"⟩ ∧
    originOf c5sources 3 = some 1 ∧
    multiMaxindex c5sources = [3, 7] ∧
    source_at c5sources 3 = 0 ∧
    multiForward c5sources ⟨3, "b0"⟩ = some (0, "b0") := by
  refine ⟨?_, ?_, ?_, ?_, ?_⟩ <;> decide

/-! ## Claim C10 -/

/-- A mutating operation on a `VertexDict`. -/
inductive VOp (Q : Type) where
  | set (key : Point) (value : Q)
  | del (key : Point)

/-- Apply one mutating operation. -/
def VertexDict.applyOp {Q : Type} (d : VertexDict Q) : VOp Q → VertexDict Q
  | .set k v => d.setItem k v
  | .del k => d.delItem k

/-- The number of `_insert` events the operation causes on `d`: 1 when a
`__setitem__` misses every live entry, 0 otherwise. -/
def VertexDict.opInserts {Q : Type} (d : VertexDict Q) : VOp Q → Nat
  | .set k _ => if (d.candidate k).isSome then 0 else 1
  | .del _ => 0

/-- Run a sequence of operations. -/
def VertexDict.runOps {Q : Type} (d : VertexDict Q) : List (VOp Q) → VertexDict Q
  | [] => d
  | op :: rest => (d.applyOp op).runOps rest

/-- Total number of `_insert` events along a run. -/
def VertexDict.traceInserts {Q : Type} (d : VertexDict Q) : List (VOp Q) → Nat
  | [] => 0
  | op :: rest => d.opInserts op + (d.applyOp op).traceInserts rest

/-- Tombstoning one position of the backing key list removes exactly one
occurrence from the iteration order. -/
theorem filterMap_set_none (l : List (Option Point)) (c : Nat) (p : Point)
    (h : l.getD c none = some p) :
    ∃ l1 l2, l.filterMap id = l1 ++ p :: l2 ∧
      (l.set c none).filterMap id = l1 ++ l2 := by
  induction l generalizing c with
  | nil => simp [List.getD] at h
  | cons a t ih =>
    cases c with
    | zero =>
      simp only [List.getD_cons_zero] at h
      subst h
      exact ⟨[], t.filterMap id, by simp, by simp⟩
    | succ c =>
      simp only [List.getD_cons_succ] at h
      obtain ⟨l1, l2, h1, h2⟩ := ih c h
      cases a with
      | none => exact ⟨l1, l2, by simpa using h1, by simpa using h2⟩
      | some a' =>
        exact ⟨a' :: l1, l2, by simpa using congrArg (a' :: ·) h1,
          by simpa using congrArg (a' :: ·) h2⟩

/-- Length bookkeeping of a single `__setitem__`. -/
theorem VertexDict.len_setItem {Q : Type} (d : VertexDict Q) (k : Point) (v : Q) :
    (d.setItem k v).len = d.len + d.opInserts (.set k v) := by
  unfold VertexDict.setItem VertexDict.opInserts
  cases h : d.candidate k with
  | some c => simp [VertexDict.len, h]
  | none => simp [VertexDict.len, VertexDict.insertNew, h]

/-- Length bookkeeping of a single `__delitem__`: the entry count never
changes. -/
theorem VertexDict.len_delItem {Q : Type} (d : VertexDict Q) (k : Point) :
    (d.delItem k).len = d.len := by
  unfold VertexDict.delItem
  cases h : d.candidate k with
  | some c => simp [VertexDict.len, h]
  | none => simp [VertexDict.len, h]

/-- Length bookkeeping of any single operation. -/
theorem VertexDict.len_applyOp {Q : Type} (d : VertexDict Q) (op : VOp Q) :
    (d.applyOp op).len = d.len + d.opInserts op := by
  cases op with
  | set k v => exact d.len_setItem k v
  | del k => simp [VertexDict.applyOp, VertexDict.opInserts, d.len_delItem k]

/-- C10: `VertexDict` deletion tombstones rather than removes.  For every
dictionary state: `__delitem__` leaves `__len__` unchanged; no operation
decreases `__len__`; over any operation sequence the length grows by
exactly the number of `_insert` events, so the length always equals the
total number of entries ever inserted, deleted ones included; and when
`__delitem__` matches a live entry, iteration loses exactly that entry's
stored key. -/
theorem c10_vertexdict_tombstones {Q : Type} (d : VertexDict Q) :
    (∀ k, (d.delItem k).len = d.len) ∧
    (∀ op, d.len ≤ (d.applyOp op).len) ∧
    (∀ ops, (d.runOps ops).len = d.len + d.traceInserts ops) ∧
    (∀ k c p, d.candidate k = some c → d.keys.getD c none = some p →
      ∃ l1 l2, d.iterKeys = l1 ++ p :: l2 ∧
        (d.delItem k).iterKeys = l1 ++ l2) := by
  refine ⟨d.len_delItem, fun op => ?_, ?_, ?_⟩
  · rw [d.len_applyOp op]
    exact Nat.le_add_right _ _
  · intro ops
    induction ops generalizing d with
    | nil => simp [VertexDict.runOps, VertexDict.traceInserts]
    | cons op rest ih =>
      show ((d.applyOp op).runOps rest).len = _
      rw [ih (d.applyOp op), d.len_applyOp op]
      show d.len + d.opInserts op + _ = d.len + (d.opInserts op + _)
      omega
  · intro k c p hc hp
    obtain ⟨l1, l2, h1, h2⟩ := filterMap_set_none d.keys c p hp
    refine ⟨l1, l2, h1, ?_⟩
    unfold VertexDict.delItem
    rw [hc]
    exact h2

/-- Witness for C10 at a concrete dictionary holding one entry. -/
theorem c10_vertexdict_tombstones_witness :
    (((VertexDict.mkEmpty Nat defaultRtol defaultAtol).setItem [5] 1).delItem [5]).len
        = ((VertexDict.mkEmpty Nat defaultRtol defaultAtol).setItem [5] 1).len ∧
    ∃ l1 l2,
      ((VertexDict.mkEmpty Nat defaultRtol defaultAtol).setItem [5] 1).iterKeys
          = l1 ++ [5] :: l2 ∧
      (((VertexDict.mkEmpty Nat defaultRtol defaultAtol).setItem [5] 1).delItem [5]).iterKeys
          = l1 ++ l2 := by
  have h := c10_vertexdict_tombstones
    ((VertexDict.mkEmpty Nat defaultRtol defaultAtol).setItem [5] 1)
  exact ⟨h.1 [5], h.2.2.2 [5] 0 [5] (by with_unfolding_all decide)
    (by with_unfolding_all decide)⟩

/-! ## Claim C3 -/

/-- Adjacent pairs of a path are all registered converter keys. -/
def adjacentPairsRegistered : List CoordinateSystem → Bool
  | a :: b :: rest =>
    decide ((a.name, b.name) ∈ coordConverterKeys) && adjacentPairsRegistered (b :: rest)
  | _ => true

instance (a b : String) : Decidable (ConvEdge a b) := by
  unfold ConvEdge
  infer_instance

/-- The set of names reachable from a name through registered
converters: `Geodetic` and `UTM` reach the three-node component, every
other name only itself. -/
def reachNames (a : String) : List String :=
  if a = "Geodetic" ∨ a = "UTM" then ["Geodetic", "UTM", "Geocentric"] else [a]

/-- Soundness of `reachNames`: converter chains stay inside it. -/
theorem convChain_mem_reachNames {a b : String} (h : ConvChain a b) :
    b ∈ reachNames a := by
  induction h with
  | refl =>
    unfold reachNames
    split
    · next hc => rcases hc with rfl | rfl <;> simp
    · simp
  | tail hab e ih =>
    simp only [ConvEdge, coordConverterKeys, List.mem_cons, List.mem_singleton,
      Prod.mk.injEq, List.not_mem_nil, or_false] at e
    by_cases ha : a = "Geodetic" ∨ a = "UTM"
    · simp only [reachNames, if_pos ha]
      rcases e with ⟨_, rfl⟩ | ⟨_, rfl⟩ | ⟨_, rfl⟩ <;> simp
    · simp only [reachNames, if_neg ha, List.mem_singleton] at ih
      subst ih
      rcases e with ⟨hb, _⟩ | ⟨hb, _⟩ | ⟨hb, _⟩
      · exact absurd (Or.inl hb) ha
      · exact absurd (Or.inl hb) ha
      · exact absurd (Or.inr hb) ha

/-- The one-step chain `Geodetic → UTM`. -/
theorem convChain_gd_u : ConvChain "Geodetic" "UTM" :=
  Relation.ReflTransGen.single (by decide)

/-- The one-step chain `Geodetic → Geocentric`. -/
theorem convChain_gd_gc : ConvChain "Geodetic" "Geocentric" :=
  Relation.ReflTransGen.single (by decide)

/-- The one-step chain `UTM → Geodetic`. -/
theorem convChain_u_gd : ConvChain "UTM" "Geodetic" :=
  Relation.ReflTransGen.single (by decide)

/-- The two-step chain `UTM → Geodetic → Geocentric`. -/
theorem convChain_u_gc : ConvChain "UTM" "Geocentric" :=
  Relation.ReflTransGen.head (by decide) convChain_gd_gc

/-- A returned path value is not `none`. -/
theorem some_path_ne_none {x : List CoordinateSystem}
    {y : Option (List CoordinateSystem)} (h : y = some x) : ¬(y = none) := by
  subst h
  simp

/-- C3 counterexample: the claimed equivalence fails in both directions.
`conversion_path(Utm(32,N), Utm(33,N))` is `None` although the registered
converters `UTM→Geodetic` and `Geodetic→UTM` form a sequence leading from
the one UTM system to the other (distinct) one; and
`conversion_path(Named("foo"), Generic)` is non-`None` (the empty path)
although no sequence of registered converters leads from `Named` to
`Generic` (there is no registered converter out of `Named`, and the
systems are distinct). -/
theorem c3_counterexample :
    conversion_path (.Utm 32 "N") (.Utm 33 "N") = none ∧
    (CoordinateSystem.Utm 32 "N") ≠ (.Utm 33 "N") ∧
    ConvEdge (CoordinateSystem.Utm 32 "N").name "Geodetic" ∧
    ConvEdge "Geodetic" (CoordinateSystem.Utm 33 "N").name ∧
    conversion_path (.Named "foo") .Generic = some [] ∧
    (CoordinateSystem.Named "foo") ≠ .Generic ∧
    ¬ ConvChain (CoordinateSystem.Named "foo").name CoordinateSystem.Generic.name := by
  refine ⟨rfl, by decide, by decide, by decide, rfl, by decide, fun h => ?_⟩
  have := convChain_mem_reachNames h
  simp [reachNames, CoordinateSystem.name] at this

/-- Evaluation lemma: two distinct `Named` systems have no conversion
path (the BFS never leaves `Named`). -/
theorem conversion_path_named_ne (s t : String) (h : s ≠ t) :
    conversion_path (.Named s) (.Named t) = none := by
  unfold conversion_path
  rw [if_neg (by simpa using h)]
  rfl

/-- Evaluation lemma: two distinct `Geodetic` systems have no conversion
path (the BFS skips re-entering the source name). -/
theorem conversion_path_geodetic_ne (e f : Ellipsoid) (h : e ≠ f) :
    conversion_path (.Geodetic e) (.Geodetic f) = none := by
  unfold conversion_path
  rw [if_neg (by simpa using h)]
  rfl

/-- Evaluation lemma: two distinct `UTM` systems have no conversion path
(the BFS skips re-entering the source name). -/
theorem conversion_path_utm_ne (n m : Int) (l k : String)
    (h : ¬(n = m ∧ l = k)) :
    conversion_path (.Utm n l) (.Utm m k) = none := by
  unfold conversion_path
  rw [if_neg (by simpa using h)]
  rfl

/-- C3 amended: `conversion_path(src, tgt)` returns `None` iff none of
the following holds: the systems are equal; the source is Generic/Named
and the target Generic; or the target's name differs from the source's
and is reachable from it by a sequence of registered converters.  (The
original claim fails in both directions: same-name distinct systems are
unreachable for the BFS even when a converter sequence exists, and the
Generic/Named special case returns a path where no converter sequence
exists.)  Whenever a non-`None` path is returned, every adjacent pair of
systems in it is a registered converter pair. -/
theorem c3_amended_conversion_path_characterization
    (src tgt : CoordinateSystem) :
    (conversion_path src tgt = none ↔
      ¬(src = tgt ∨ (src.genericOrNamed && tgt.isGeneric) = true ∨
        (src.name ≠ tgt.name ∧ ConvChain src.name tgt.name))) ∧
    (∀ path, conversion_path src tgt = some path →
      adjacentPairsRegistered path = true) := by
  have reachfalse : ∀ a b : String, ConvChain a b → b ∈ reachNames a :=
    fun a b h => convChain_mem_reachNames h
  cases src <;> cases tgt
  case Generic.Generic =>
    exact ⟨iff_of_false (some_path_ne_none rfl) (not_not_intro (Or.inl rfl)),
      fun path h => by injection h with h; subst h; rfl⟩
  case Generic.Named t =>
    refine ⟨iff_of_true rfl ?_, fun path h => by cases h⟩
    rintro (h | h | ⟨hne, hch⟩)
    · cases h
    · simp [CoordinateSystem.genericOrNamed, CoordinateSystem.isGeneric] at h
    · have := convChain_mem_reachNames hch
      simp [reachNames, CoordinateSystem.name] at this
  case Generic.Geodetic e =>
    refine ⟨iff_of_true rfl ?_, fun path h => by cases h⟩
    rintro (h | h | ⟨hne, hch⟩)
    · cases h
    · simp [CoordinateSystem.genericOrNamed, CoordinateSystem.isGeneric] at h
    · have := convChain_mem_reachNames hch
      simp [reachNames, CoordinateSystem.name] at this
  case Generic.Utm n l =>
    refine ⟨iff_of_true rfl ?_, fun path h => by cases h⟩
    rintro (h | h | ⟨hne, hch⟩)
    · cases h
    · simp [CoordinateSystem.genericOrNamed, CoordinateSystem.isGeneric] at h
    · have := convChain_mem_reachNames hch
      simp [reachNames, CoordinateSystem.name] at this
  case Generic.Geocentric =>
    refine ⟨iff_of_true rfl ?_, fun path h => by cases h⟩
    rintro (h | h | ⟨hne, hch⟩)
    · cases h
    · simp [CoordinateSystem.genericOrNamed, CoordinateSystem.isGeneric] at h
    · have := convChain_mem_reachNames hch
      simp [reachNames, CoordinateSystem.name] at this
  case Named.Generic s =>
    exact ⟨iff_of_false (some_path_ne_none rfl) (not_not_intro (Or.inr (Or.inl rfl))),
      fun path h => by injection h with h; subst h; rfl⟩
  case Named.Named s t =>
    by_cases hst : s = t
    · subst hst
      refine ⟨?_, ?_⟩
      · rw [show conversion_path (.Named s) (.Named s) = some [] from
          by unfold conversion_path; rw [if_pos rfl]]
        exact iff_of_false (some_path_ne_none rfl) (not_not_intro (Or.inl rfl))
      · intro path h
        rw [show conversion_path (.Named s) (.Named s) = some [] from
          by unfold conversion_path; rw [if_pos rfl]] at h
        injection h with h
        subst h
        rfl
    · refine ⟨?_, ?_⟩
      · rw [conversion_path_named_ne s t hst]
        refine iff_of_true rfl ?_
        rintro (h | h | ⟨hne, hch⟩)
        · exact hst (by injection h)
        · simp [CoordinateSystem.genericOrNamed, CoordinateSystem.isGeneric] at h
        · exact hne rfl
      · intro path h
        rw [conversion_path_named_ne s t hst] at h
        cases h
  case Named.Geodetic s e =>
    refine ⟨iff_of_true rfl ?_, fun path h => by cases h⟩
    rintro (h | h | ⟨hne, hch⟩)
    · cases h
    · simp [CoordinateSystem.genericOrNamed, CoordinateSystem.isGeneric] at h
    · have := convChain_mem_reachNames hch
      simp [reachNames, CoordinateSystem.name] at this
  case Named.Utm s n l =>
    refine ⟨iff_of_true rfl ?_, fun path h => by cases h⟩
    rintro (h | h | ⟨hne, hch⟩)
    · cases h
    · simp [CoordinateSystem.genericOrNamed, CoordinateSystem.isGeneric] at h
    · have := convChain_mem_reachNames hch
      simp [reachNames, CoordinateSystem.name] at this
  case Named.Geocentric s =>
    refine ⟨iff_of_true rfl ?_, fun path h => by cases h⟩
    rintro (h | h | ⟨hne, hch⟩)
    · cases h
    · simp [CoordinateSystem.genericOrNamed, CoordinateSystem.isGeneric] at h
    · have := convChain_mem_reachNames hch
      simp [reachNames, CoordinateSystem.name] at this
  case Geodetic.Generic e =>
    refine ⟨iff_of_true rfl ?_, fun path h => by cases h⟩
    rintro (h | h | ⟨hne, hch⟩)
    · cases h
    · simp [CoordinateSystem.genericOrNamed, CoordinateSystem.isGeneric] at h
    · have := convChain_mem_reachNames hch
      simp [reachNames, CoordinateSystem.name] at this
  case Geodetic.Named e t =>
    refine ⟨iff_of_true rfl ?_, fun path h => by cases h⟩
    rintro (h | h | ⟨hne, hch⟩)
    · cases h
    · simp [CoordinateSystem.genericOrNamed, CoordinateSystem.isGeneric] at h
    · have := convChain_mem_reachNames hch
      simp [reachNames, CoordinateSystem.name] at this
  case Geodetic.Geodetic e f =>
    by_cases hef : e = f
    · subst hef
      refine ⟨?_, ?_⟩
      · rw [show conversion_path (.Geodetic e) (.Geodetic e) = some [] from
          by unfold conversion_path; rw [if_pos rfl]]
        exact iff_of_false (some_path_ne_none rfl) (not_not_intro (Or.inl rfl))
      · intro path h
        rw [show conversion_path (.Geodetic e) (.Geodetic e) = some [] from
          by unfold conversion_path; rw [if_pos rfl]] at h
        injection h with h
        subst h
        rfl
    · refine ⟨?_, ?_⟩
      · rw [conversion_path_geodetic_ne e f hef]
        refine iff_of_true rfl ?_
        rintro (h | h | ⟨hne, hch⟩)
        · exact hef (by injection h)
        · simp [CoordinateSystem.genericOrNamed, CoordinateSystem.isGeneric] at h
        · exact hne rfl
      · intro path h
        rw [conversion_path_geodetic_ne e f hef] at h
        cases h
  case Geodetic.Utm e n l =>
    refine ⟨iff_of_false (some_path_ne_none rfl)
      (not_not_intro (Or.inr (Or.inr ⟨by simp [CoordinateSystem.name], convChain_gd_u⟩))), ?_⟩
    intro path h
    injection h with h
    subst h
    rfl
  case Geodetic.Geocentric e =>
    refine ⟨iff_of_false (some_path_ne_none rfl)
      (not_not_intro (Or.inr (Or.inr ⟨by simp [CoordinateSystem.name], convChain_gd_gc⟩))), ?_⟩
    intro path h
    injection h with h
    subst h
    rfl
  case Utm.Generic n l =>
    refine ⟨iff_of_true rfl ?_, fun path h => by cases h⟩
    rintro (h | h | ⟨hne, hch⟩)
    · cases h
    · simp [CoordinateSystem.genericOrNamed, CoordinateSystem.isGeneric] at h
    · have := convChain_mem_reachNames hch
      simp [reachNames, CoordinateSystem.name] at this
  case Utm.Named n l t =>
    refine ⟨iff_of_true rfl ?_, fun path h => by cases h⟩
    rintro (h | h | ⟨hne, hch⟩)
    · cases h
    · simp [CoordinateSystem.genericOrNamed, CoordinateSystem.isGeneric] at h
    · have := convChain_mem_reachNames hch
      simp [reachNames, CoordinateSystem.name] at this
  case Utm.Geodetic n l e =>
    refine ⟨iff_of_false (some_path_ne_none rfl)
      (not_not_intro (Or.inr (Or.inr ⟨by simp [CoordinateSystem.name], convChain_u_gd⟩))), ?_⟩
    intro path h
    injection h with h
    subst h
    rfl
  case Utm.Utm n l m k =>
    by_cases hnm : n = m ∧ l = k
    · obtain ⟨rfl, rfl⟩ := hnm
      refine ⟨?_, ?_⟩
      · rw [show conversion_path (.Utm n l) (.Utm n l) = some [] from
          by unfold conversion_path; rw [if_pos rfl]]
        exact iff_of_false (some_path_ne_none rfl) (not_not_intro (Or.inl rfl))
      · intro path h
        rw [show conversion_path (.Utm n l) (.Utm n l) = some [] from
          by unfold conversion_path; rw [if_pos rfl]] at h
        injection h with h
        subst h
        rfl
    · refine ⟨?_, ?_⟩
      · rw [conversion_path_utm_ne n m l k hnm]
        refine iff_of_true rfl ?_
        rintro (h | h | ⟨hne, hch⟩)
        · exact hnm (by injection h with h1 h2; exact ⟨h1, h2⟩)
        · simp [CoordinateSystem.genericOrNamed, CoordinateSystem.isGeneric] at h
        · exact hne rfl
      · intro path h
        rw [conversion_path_utm_ne n m l k hnm] at h
        cases h
  case Utm.Geocentric n l =>
    refine ⟨iff_of_false (some_path_ne_none rfl)
      (not_not_intro (Or.inr (Or.inr ⟨by simp [CoordinateSystem.name], convChain_u_gc⟩))), ?_⟩
    intro path h
    injection h with h
    subst h
    rfl
  case Geocentric.Generic =>
    refine ⟨iff_of_true rfl ?_, fun path h => by cases h⟩
    rintro (h | h | ⟨hne, hch⟩)
    · cases h
    · simp [CoordinateSystem.genericOrNamed, CoordinateSystem.isGeneric] at h
    · have := convChain_mem_reachNames hch
      simp [reachNames, CoordinateSystem.name] at this
  case Geocentric.Named t =>
    refine ⟨iff_of_true rfl ?_, fun path h => by cases h⟩
    rintro (h | h | ⟨hne, hch⟩)
    · cases h
    · simp [CoordinateSystem.genericOrNamed, CoordinateSystem.isGeneric] at h
    · have := convChain_mem_reachNames hch
      simp [reachNames, CoordinateSystem.name] at this
  case Geocentric.Geodetic e =>
    refine ⟨iff_of_true rfl ?_, fun path h => by cases h⟩
    rintro (h | h | ⟨hne, hch⟩)
    · cases h
    · simp [CoordinateSystem.genericOrNamed, CoordinateSystem.isGeneric] at h
    · have := convChain_mem_reachNames hch
      simp [reachNames, CoordinateSystem.name] at this
  case Geocentric.Utm n l =>
    refine ⟨iff_of_true rfl ?_, fun path h => by cases h⟩
    rintro (h | h | ⟨hne, hch⟩)
    · cases h
    · simp [CoordinateSystem.genericOrNamed, CoordinateSystem.isGeneric] at h
    · have := convChain_mem_reachNames hch
      simp [reachNames, CoordinateSystem.name] at this
  case Geocentric.Geocentric =>
    exact ⟨iff_of_false (some_path_ne_none rfl) (not_not_intro (Or.inl rfl)),
      fun path h => by injection h with h; subst h; rfl⟩

/-- Witness for C3 amended at the Utm→Geocentric pair, whose path has
two registered adjacent pairs. -/
theorem c3_amended_witness :
    conversion_path (.Utm 32 "N") .Geocentric
        = some [.Utm 32 "N", .Geodetic .Wgs84, .Geocentric] ∧
    adjacentPairsRegistered [.Utm 32 "N", .Geodetic .Wgs84, .Geocentric] = true ∧
    ¬(conversion_path (.Utm 32 "N") .Geocentric = none) := by
  have h := c3_amended_conversion_path_characterization (.Utm 32 "N") .Geocentric
  refine ⟨rfl, h.2 [.Utm 32 "N", .Geodetic .Wgs84, .Geocentric] rfl, ?_⟩
  rw [h.1]
  exact not_not_intro (Or.inr (Or.inr ⟨by simp [CoordinateSystem.name], convChain_u_gc⟩))

/-! ## Claim C4 -/

/-- Appending a fresh shape binding makes the new key found. -/
theorem shapesFind_append_new (shapes : List (Nat × Shape)) (k : Nat) (s : Shape)
    (h : shapesFind shapes k = none) :
    shapesFind (shapes ++ [(k, s)]) k = some s := by
  unfold shapesFind at h ⊢
  rw [List.find?_append]
  rcases hf : shapes.find? (fun p => p.1 == k) with _ | v
  · rw [hf]
    simp
  · rw [hf] at h
    simp at h

/-- Appending shape bindings preserves existing ones. -/
theorem shapesFind_append_mono (shapes ext : List (Nat × Shape)) (k : Nat) (s : Shape)
    (h : shapesFind shapes k = some s) :
    shapesFind (shapes ++ ext) k = some s := by
  unfold shapesFind at h ⊢
  rw [List.find?_append]
  rcases hf : shapes.find? (fun p => p.1 == k) with _ | v
  · rw [hf] at h
    simp at h
  · rw [hf] at h
    rw [hf]
    exact h

/-- A successful `ZoneManager.lookup` returns a zone whose key is
recorded with the zone shape, and only appends to the shape table. -/
theorem ZoneManager.lookup_success_facts (m : ZoneManager) (z z1 : Zone)
    (m1 : ZoneManager) (h : m.lookup z = some (z1, m1)) :
    (∃ k, z1.global_key = some k ∧ shapesFind m1.shapes k = some z1.shape) ∧
    (∃ ext, m1.shapes = m.shapes ++ ext) := by
  unfold ZoneManager.lookup at h
  rcases hz : z.global_key with _ | k
  · rw [hz] at h
    dsimp only at h
    rcases hck : m.cornerKeys z.coords with _ | keys
    · rw [hck] at h
      simp at h
    · rw [hck] at h
      dsimp only at h
      by_cases hcard : 2 ≤ keys.length
      · rw [if_pos hcard] at h
        simp at h
      · rw [if_neg hcard] at h
        rcases keys with _ | ⟨key, rest⟩
        · dsimp only at h
          by_cases hfresh : (shapesFind m.shapes m.shapes.length).isSome
          · rw [if_pos hfresh] at h
            simp at h
          · rw [if_neg hfresh] at h
            injection h with h
            obtain h1 := congrArg Prod.fst h
            obtain h2 := congrArg Prod.snd h
            simp only at h1 h2
            refine ⟨⟨m.shapes.length, ?_, ?_⟩, ⟨[(m.shapes.length, z.shape)], ?_⟩⟩
            · rw [← h1]
            · rw [← h1, ← h2]
              exact shapesFind_append_new m.shapes m.shapes.length z.shape
                (Option.not_isSome_iff_eq_none.mp hfresh)
            · rw [← h2]
        · dsimp only at h
          by_cases hsh : shapesFind m.shapes key = some z.shape
          · rw [if_pos hsh] at h
            injection h with h
            obtain h1 := congrArg Prod.fst h
            obtain h2 := congrArg Prod.snd h
            simp only at h1 h2
            refine ⟨⟨key, ?_, ?_⟩, ⟨[], by simp [← h2]⟩⟩
            · rw [← h1]
            · rw [← h1, ← h2]
              exact hsh
          · rw [if_neg hsh] at h
            simp at h
  · rw [hz] at h
    dsimp only at h
    by_cases hsh : shapesFind m.shapes k = some z.shape
    · rw [if_pos hsh] at h
      injection h with h
      obtain h1 := congrArg Prod.fst h
      obtain h2 := congrArg Prod.snd h
      simp only at h1 h2
      refine ⟨⟨k, ?_, ?_⟩, ⟨[], by simp [← h2]⟩⟩
      · rw [← h1, hz]
      · rw [← h1, ← h2]
        exact hsh
    · rw [if_neg hsh] at h
      simp at h

/-- Relookup of an already-keyed zone whose key is recorded with its
shape is the identity on both the zone and the manager. -/
theorem ZoneManager.lookup_keyed (m : ZoneManager) (z : Zone) (k : Nat)
    (hk : z.global_key = some k) (hs : shapesFind m.shapes k = some z.shape) :
    m.lookup z = some (z, m) := by
  unfold ZoneManager.lookup
  rw [hk]
  dsimp only
  rw [if_pos hs]

/-- Draining through `lookupMany` only grows the shape table. -/
theorem ZoneManager.lookupMany_shapes_mono (zs : List Zone) (m m2 : ZoneManager)
    (zs1 : List Zone) (h : m.lookupMany zs = some (zs1, m2)) (k : Nat) (s : Shape)
    (hs : shapesFind m.shapes k = some s) : shapesFind m2.shapes k = some s := by
  induction zs generalizing m zs1 with
  | nil =>
    unfold ZoneManager.lookupMany at h
    injection h with h
    obtain h2 := congrArg Prod.snd h
    simp only at h2
    rw [← h2]
    exact hs
  | cons z rest ih =>
    unfold ZoneManager.lookupMany at h
    rcases hl : m.lookup z with _ | ⟨z1, m1⟩
    · rw [hl] at h
      simp at h
    · rw [hl] at h
      dsimp only at h
      rcases hr : m1.lookupMany rest with _ | ⟨zs2, m3⟩
      · rw [hr] at h
        simp at h
      · rw [hr] at h
        dsimp only at h
        injection h with h
        obtain h2 := congrArg Prod.snd h
        simp only at h2
        subst h2
        obtain ⟨_, ext, hext⟩ := ZoneManager.lookup_success_facts m z z1 m1 hl
        exact ih m1 zs2 hr (hext ▸ shapesFind_append_mono m.shapes ext k s hs)

/-- Every zone in the output of a successful drain carries a key that
the final manager records with the zone shape. -/
theorem ZoneManager.lookupMany_out_keyed (zs : List Zone) (m m2 : ZoneManager)
    (zs1 : List Zone) (h : m.lookupMany zs = some (zs1, m2)) :
    ∀ z1 ∈ zs1, ∃ k, z1.global_key = some k ∧ shapesFind m2.shapes k = some z1.shape := by
  induction zs generalizing m zs1 with
  | nil =>
    unfold ZoneManager.lookupMany at h
    injection h with h
    obtain h1 := congrArg Prod.fst h
    simp only at h1
    subst h1
    intro z1 hz1
    cases hz1
  | cons z rest ih =>
    unfold ZoneManager.lookupMany at h
    rcases hl : m.lookup z with _ | ⟨z1, m1⟩
    · rw [hl] at h
      simp at h
    · rw [hl] at h
      dsimp only at h
      rcases hr : m1.lookupMany rest with _ | ⟨zs2, m3⟩
      · rw [hr] at h
        simp at h
      · rw [hr] at h
        dsimp only at h
        injection h with h
        obtain h1 := congrArg Prod.fst h
        obtain h2 := congrArg Prod.snd h
        simp only at h1 h2
        subst h2
        intro w hw
        rw [← h1] at hw
        rcases hw with _ | hw
        · obtain ⟨⟨k, hk, hs⟩, _⟩ := ZoneManager.lookup_success_facts m z z1 m1 hl
          exact ⟨k, hk, ZoneManager.lookupMany_shapes_mono rest m1 _ zs2 hr k _ hs⟩
        · exact ih m1 zs2 hr w (by assumption)

/-- Relooking-up a list of already-recorded keyed zones is the identity. -/
theorem ZoneManager.lookupMany_keyed (m : ZoneManager) (zs : List Zone)
    (h : ∀ z ∈ zs, ∃ k, z.global_key = some k ∧ shapesFind m.shapes k = some z.shape) :
    m.lookupMany zs = some (zs, m) := by
  induction zs with
  | nil => rfl
  | cons z rest ih =>
    obtain ⟨k, hk, hs⟩ := h z (by simp)
    unfold ZoneManager.lookupMany
    rw [ZoneManager.lookup_keyed m z k hk hs]
    dsimp only
    rw [ih (fun w hw => h w (by simp [hw]))]

/-- C4 amended: `KeyZones` cannot be applied twice — its precondition
`validate_source` rejects the already-globally-keyed source that a first
`KeyZones` produces — and a single `KeyZones` is stable: re-draining the
zones it emitted through its own manager returns exactly the same zones
and leaves the manager unchanged, so the assigned global keys never
change. -/
theorem c4_amended_keyzones_stable (props : SourceProperties) (m : ZoneManager)
    (zs zs1 : List Zone) (m2 : ZoneManager)
    (h : m.lookupMany zs = some (zs1, m2)) :
    keyZonesValidateSource (keyZonesProperties props) = false ∧
    m2.lookupMany zs1 = some (zs1, m2) := by
  refine ⟨rfl, ?_⟩
  exact ZoneManager.lookupMany_keyed m2 zs1
    (ZoneManager.lookupMany_out_keyed zs m m2 zs1 h)

set_option maxRecDepth 4000 in
/-- Witness for C4 amended: a fresh manager drains one line zone,
assigning key 0; re-draining the keyed output through the resulting
manager is the identity. -/
theorem c4_amended_keyzones_stable_witness :
    keyZonesValidateSource (keyZonesProperties ⟨false, false⟩) = false ∧
    ZoneManager.lookupMany
        ⟨⟨1/100000, 1/100000000, [some [0], some [1]], [some [0], some [0]],
          [[(0, 0), (1, 1)]]⟩, [(0, Shape.Line)]⟩
        [⟨Shape.Line, [[0], [1]], "z", some 0⟩]
      = some ([⟨Shape.Line, [[0], [1]], "z", some 0⟩],
          ⟨⟨1/100000, 1/100000000, [some [0], some [1]], [some [0], some [0]],
            [[(0, 0), (1, 1)]]⟩, [(0, Shape.Line)]⟩) :=
  c4_amended_keyzones_stable ⟨false, false⟩ ZoneManager.fresh
    [⟨Shape.Line, [[0], [1]], "z", none⟩]
    [⟨Shape.Line, [[0], [1]], "z", some 0⟩]
    ⟨⟨1/100000, 1/100000000, [some [0], some [1]], [some [0], some [0]],
      [[(0, 0), (1, 1)]]⟩, [(0, Shape.Line)]⟩
    (by with_unfolding_all rfl)

/-- C4 counterexample: applying `KeyZones` twice is impossible as the
claim supposes.  A first `KeyZones` sets `globally_keyed=True`, so the
second filter constructor fails its `validate_source` assertion; and even
the second manager own `lookup` on an already-keyed zone raises
(`self.shapes[key]` on the fresh empty shape table). -/
theorem c4_counterexample :
    keyZonesValidateSource (keyZonesProperties ⟨false, false⟩) = false ∧
    ZoneManager.fresh.lookup ⟨Shape.Line, [[0], [1]], "z", some 0⟩ = none := by
  exact ⟨rfl, rfl⟩

/-! ## Claims C1 and C2: tolerance-window analysis

The search window of `_bounds` is asymmetric: a stored value `v` is a
candidate for probe `k` roughly when `|k - v|` is below
`atol + rtol*|v|` — the tolerance scales with the *stored* value, not
with the larger of the two.  The two lemmas below bracket the behaviour
at the default tolerances: strict closeness measured by the *smaller*
magnitude implies candidacy, separation measured by the *larger*
magnitude excludes it.  Between the two lies the asymmetric band the C1
counterexample exploits. -/

/-- Closeness within `atol + rtol*min(|k|,|v|)` (strictly) puts the
stored value inside the probe's window, in all three `_bounds`
branches. -/
theorem VertexDict.mem_bounds_of_close {Q : Type} (d : VertexDict Q)
    (hr : d.rtol = defaultRtol) (ha : d.atol = defaultAtol) (k v : ℚ)
    (h : |k - v| < defaultAtol + defaultRtol * min |k| |v|) :
    (d.bounds k).1 ≤ v ∧ v < (d.bounds k).2 := by
  have hmin1 : defaultRtol * min |k| |v| ≤ defaultRtol * |k| :=
    mul_le_mul_of_nonneg_left (min_le_left _ _) (by norm_num [defaultRtol])
  have hmin2 : defaultRtol * min |k| |v| ≤ defaultRtol * |v| :=
    mul_le_mul_of_nonneg_left (min_le_right _ _) (by norm_num [defaultRtol])
  have hka : |k - v| < defaultAtol + defaultRtol * |k| := by linarith
  have hva : |k - v| < defaultAtol + defaultRtol * |v| := by linarith
  clear h hmin1 hmin2
  have e1 : (0:ℚ) < 1 + defaultRtol := by norm_num [defaultRtol]
  have e2 : (0:ℚ) < 1 - defaultRtol := by norm_num [defaultRtol]
  unfold VertexDict.bounds
  rw [hr, ha]
  rcases abs_cases (k - v) with ⟨ha1, hs1⟩ | ⟨ha1, hs1⟩ <;>
    rcases abs_cases k with ⟨ha2, hs2⟩ | ⟨ha2, hs2⟩ <;>
      rcases abs_cases v with ⟨ha3, hs3⟩ | ⟨ha3, hs3⟩ <;>
        rw [ha1, ha2] at hka <;> rw [ha1, ha3] at hva <;>
          split_ifs with c1 c2 <;>
            refine ⟨?_, ?_⟩ <;>
              first
                | (rw [div_le_iff₀ e1]
                   unfold defaultRtol defaultAtol at *
                   linarith)
                | (rw [div_le_iff₀ e2]
                   unfold defaultRtol defaultAtol at *
                   linarith)
                | (rw [lt_div_iff₀ e1]
                   unfold defaultRtol defaultAtol at *
                   linarith)
                | (rw [lt_div_iff₀ e2]
                   unfold defaultRtol defaultAtol at *
                   linarith)

/-- Separation beyond `atol + rtol*max(|k|,|v|)` keeps the stored value
outside the probe's window, in all three `_bounds` branches. -/
theorem VertexDict.not_mem_bounds_of_far {Q : Type} (d : VertexDict Q)
    (hr : d.rtol = defaultRtol) (ha : d.atol = defaultAtol) (k v : ℚ)
    (h : defaultAtol + defaultRtol * max |k| |v| < |k - v|) :
    v < (d.bounds k).1 ∨ (d.bounds k).2 ≤ v := by
  have hmax1 : defaultRtol * |k| ≤ defaultRtol * max |k| |v| :=
    mul_le_mul_of_nonneg_left (le_max_left _ _) (by norm_num [defaultRtol])
  have hmax2 : defaultRtol * |v| ≤ defaultRtol * max |k| |v| :=
    mul_le_mul_of_nonneg_left (le_max_right _ _) (by norm_num [defaultRtol])
  have hka : defaultAtol + defaultRtol * |k| < |k - v| := by linarith
  have hva : defaultAtol + defaultRtol * |v| < |k - v| := by linarith
  clear h hmax1 hmax2
  have e1 : (0:ℚ) < 1 + defaultRtol := by norm_num [defaultRtol]
  have e2 : (0:ℚ) < 1 - defaultRtol := by norm_num [defaultRtol]
  unfold VertexDict.bounds
  rw [hr, ha]
  rcases abs_cases (k - v) with ⟨ha1, hs1⟩ | ⟨ha1, hs1⟩ <;>
    rcases abs_cases k with ⟨ha2, hs2⟩ | ⟨ha2, hs2⟩ <;>
      rcases abs_cases v with ⟨ha3, hs3⟩ | ⟨ha3, hs3⟩ <;>
        rw [ha1, ha2] at hka <;> rw [ha1, ha3] at hva <;>
          split_ifs with c1 c2 <;>
            rcases le_or_lt v k with hvk | hvk <;>
              first
                | (left
                   rw [lt_div_iff₀ e1]
                   unfold defaultRtol defaultAtol at *
                   linarith)
                | (left
                   rw [lt_div_iff₀ e2]
                   unfold defaultRtol defaultAtol at *
                   linarith)
                | (right
                   rw [div_le_iff₀ e1]
                   unfold defaultRtol defaultAtol at *
                   linarith)
                | (right
                   rw [div_le_iff₀ e2]
                   unfold defaultRtol defaultAtol at *
                   linarith)

/-! ### Sorted per-axis lists and bisection windows -/

/-- The ordering invariant of a per-axis lookup list. -/
def ValSorted (l : List (Nat × ℚ)) : Prop :=
  l.Pairwise (fun x y => x.2 ≤ y.2)

/-- Membership in an insort result. -/
theorem mem_insortRight (l : List (Nat × ℚ)) (p q : Nat × ℚ) :
    q ∈ insortRight l p ↔ q = p ∨ q ∈ l := by
  induction l with
  | nil => simp [insortRight]
  | cons r rest ih =>
    unfold insortRight
    split_ifs with hc
    · simp [or_comm, or_assoc, or_left_comm]
    · simp only [List.mem_cons, ih]
      tauto

/-- Insort preserves the ordering invariant. -/
theorem insortRight_sorted (l : List (Nat × ℚ)) (p : Nat × ℚ)
    (h : ValSorted l) : ValSorted (insortRight l p) := by
  induction l with
  | nil => simp [insortRight, ValSorted]
  | cons r rest ih =>
    rcases List.pairwise_cons.mp h with ⟨hr, hrest⟩
    unfold insortRight
    split_ifs with hc
    · refine List.Pairwise.cons ?_ h
      intro x hx
      rcases List.mem_cons.mp hx with rfl | hx
      · exact le_of_lt hc
      · exact le_trans (le_of_lt hc) (hr x hx)
    · refine List.Pairwise.cons ?_ (ih hrest)
      intro x hx
      rcases (mem_insortRight rest p x).mp hx with rfl | hx
      · exact le_of_not_lt hc
      · exact hr x hx

/-- Unfolding the linear characterization of `bisect_left` one step. -/
theorem bisectLeft_cons (q : Nat × ℚ) (rest : List (Nat × ℚ)) (x : ℚ) :
    bisectLeft (q :: rest) x = if q.2 < x then bisectLeft rest x + 1 else 0 := by
  unfold bisectLeft
  rw [List.takeWhile_cons]
  by_cases h : q.2 < x
  · simp [h]
  · simp [h]

/-- Characterization of the bisection slice `l[lo:hi]` on a sorted list:
its members are exactly the members of `l` with value in `[lo, hi)`. -/
theorem mem_bisect_slice (l : List (Nat × ℚ)) (hs : ValSorted l) (lo hi : ℚ)
    (e : Nat × ℚ) :
    e ∈ (l.take (bisectLeft l hi)).drop (bisectLeft l lo) ↔
      e ∈ l ∧ lo ≤ e.2 ∧ e.2 < hi := by
  induction l with
  | nil => simp [bisectLeft]
  | cons q rest ih =>
    rcases List.pairwise_cons.mp hs with ⟨hq, hrest⟩
    rw [bisectLeft_cons, bisectLeft_cons]
    by_cases hlo : q.2 < lo
    · rw [if_pos hlo]
      by_cases hhi : q.2 < hi
      · rw [if_pos hhi]
        simp only [List.take_succ_cons, List.drop_succ_cons]
        rw [ih hrest]
        constructor
        · rintro ⟨hm, hb⟩
          exact ⟨List.mem_cons_of_mem q hm, hb⟩
        · rintro ⟨hm, hb⟩
          rcases List.mem_cons.mp hm with rfl | hm
          · exact absurd hb.1 (not_le.mpr hlo)
          · exact ⟨hm, hb⟩
      · rw [if_neg hhi]
        simp only [List.take_zero, List.drop, List.not_mem_nil, false_iff]
        rintro ⟨hm, hb1, hb2⟩
        rcases List.mem_cons.mp hm with rfl | hm
        · exact absurd hb1 (not_le.mpr hlo)
        · exact hlo.not_le (le_trans hb1 (le_trans (le_of_lt hb2) (le_of_not_lt hhi)))
    · rw [if_neg hlo]
      by_cases hhi : q.2 < hi
      · rw [if_pos hhi]
        simp only [List.take_succ_cons, List.drop_zero]
        have hbl : bisectLeft rest lo = 0 := by
          cases rest with
          | nil => rfl
          | cons r rest2 =>
            rw [bisectLeft_cons, if_neg]
            exact not_lt.mpr (le_trans (le_of_not_lt hlo) (hq r (by simp)))
        have hrest2 := ih hrest
        rw [hbl, List.drop_zero] at hrest2
        simp only [List.mem_cons, hrest2]
        constructor
        · rintro (rfl | ⟨hm, hb⟩)
          · exact ⟨Or.inl rfl, le_of_not_lt hlo, hhi⟩
          · exact ⟨Or.inr hm, hb⟩
        · rintro ⟨rfl | hm, hb⟩
          · exact Or.inl rfl
          · exact Or.inr ⟨hm, hb⟩
      · rw [if_neg hhi]
        simp only [List.take_zero, List.drop_zero, List.not_mem_nil, false_iff]
        rintro ⟨hm, hb1, hb2⟩
        rcases List.mem_cons.mp hm with rfl | hm
        · exact hhi hb2
        · exact hhi (lt_of_le_of_lt (hq e hm) hb2)

/-! ### Characterizing insertion into the per-axis tables -/

/-- Reading back a padded write. -/
theorem lutSet_getD (lut : List (List (Nat × ℚ))) (c : Nat) (x : List (Nat × ℚ))
    (i : Nat) :
    (lutSet lut c x).getD i [] = if i = c then x else lut.getD i [] := by
  induction lut generalizing c i with
  | nil =>
    induction c generalizing i with
    | zero =>
      cases i with
      | zero => simp [lutSet]
      | succ j => simp [lutSet]
    | succ c ih =>
      cases i with
      | zero => simp [lutSet]
      | succ j => simpa [lutSet] using ih j
  | cons h t ih =>
    cases c with
    | zero =>
      cases i with
      | zero => simp [lutSet]
      | succ j => simp [lutSet]
    | succ c =>
      cases i with
      | zero => simp [lutSet]
      | succ j => simpa [lutSet] using ih c j

/-- The per-axis write loop of `_insert`, on any pair list with distinct
axis indices: each touched axis receives one insort, the rest are
unchanged. -/
theorem foldl_lutSet_getD (l : List (Nat × ℚ)) (lut0 : List (List (Nat × ℚ)))
    (newindex : Nat) (a : Nat) (hnodup : (l.map Prod.fst).Nodup) :
    ((l.foldl (fun lut cv =>
        lutSet lut cv.1 (insortRight (lut.getD cv.1 []) (newindex, cv.2))) lut0).getD a [])
      = match l.find? (fun cv => cv.1 == a) with
        | some cv => insortRight (lut0.getD a []) (newindex, cv.2)
        | none => lut0.getD a [] := by
  induction l generalizing lut0 with
  | nil => rfl
  | cons cv rest ih =>
    simp only [List.map_cons, List.nodup_cons] at hnodup
    rw [List.foldl_cons, ih _ hnodup.2, List.find?_cons]
    by_cases hca : cv.1 = a
    · subst hca
      simp only [beq_self_eq_true]
      have hnone : rest.find? (fun cw => cw.1 == cv.1) = none := by
        rw [List.find?_eq_none]
        intro x hx hb
        have hx1 : x.1 = cv.1 := beq_iff_eq.mp hb
        exact hnodup.1 (hx1 ▸ List.mem_map_of_mem Prod.fst hx)
      rw [hnone, lutSet_getD]
      simp
    · have hbeq : (cv.1 == a) = false := beq_eq_false_iff_ne.mpr hca
      rw [hbeq]
      have hgd : (lutSet lut0 cv.1
          (insortRight (lut0.getD cv.1 []) (newindex, cv.2))).getD a []
          = lut0.getD a [] := by
        rw [lutSet_getD, if_neg (fun h => hca h.symm)]
      rcases hf : rest.find? (fun cw => cw.1 == a) with _ | cw
      · rw [hgd]
      · rw [hgd]

/-- Characterization of `_insert` on the axis tables. -/
theorem insertNew_lutGet {Q : Type} (d : VertexDict Q) (pt : Point) (v : Q)
    (a : Nat) :
    (d.insertNew pt v).lutGet a =
      if a < pt.length then
        insortRight (d.lutGet a) (d.values.length, pt.getD a 0)
      else d.lutGet a := by
  unfold VertexDict.insertNew VertexDict.lutGet
  dsimp only
  rw [foldl_lutSet_getD _ _ _ _ (by simp [List.enum_map_fst, List.nodup_range])]
  have hfind : pt.enum.find? (fun cv => cv.1 == a)
      = if a < pt.length then some (a, pt.getD a 0) else none := by
    have : ∀ (off : Nat) (l : List ℚ),
        (l.enumFrom off).find? (fun cv => cv.1 == off + a)
          = if a < l.length then some (off + a, l.getD a 0) else none := by
      intro off l
      induction l generalizing off a with
      | nil => simp
      | cons x t ihl =>
        rw [List.enumFrom_cons, List.find?_cons]
        cases a with
        | zero => simp
        | succ b =>
          have hne : (off == off + (b + 1)) = false := by
            simp only [beq_eq_false_iff_ne]
            omega
          rw [hne]
          have := ihl b (off + 1)
          rw [show off + 1 + b = off + (b + 1) from by omega] at this
          rw [this]
          by_cases hb : b < t.length
          · rw [if_pos hb, if_pos (by simpa using Nat.succ_lt_succ hb)]
            simp
          · rw [if_neg hb, if_neg (by simpa using fun hh => hb (Nat.lt_of_succ_lt_succ hh))]
    have h0 := this 0 pt
    simpa using h0
  rw [hfind]
  by_cases hl : a < pt.length
  · rw [if_pos hl, if_pos hl]
  · rw [if_neg hl, if_neg hl]

/-! ### The candidate intersection loop and the live-candidate scan -/

/-- The intersection loop of `_candidate`, from a non-`None`
accumulator: the result collects the indices present in the accumulator
and in every remaining axis window. -/
theorem candidate_foldl_some {Q : Type} (d : VertexDict Q)
    (l : List (Nat × ℚ)) (t : KeySet) :
    ∃ s, l.foldl
        (fun acc ck =>
          let s := d.axisCandidates ck.1 ck.2
          match acc with
          | none => some s
          | some t => some (t.inter s)) (some t) = some s ∧
      ∀ i, i ∈ s ↔ i ∈ t ∧ ∀ ak ∈ l, i ∈ d.axisCandidates ak.1 ak.2 := by
  induction l generalizing t with
  | nil => exact ⟨t, rfl, by simp⟩
  | cons ck rest ih =>
    obtain ⟨s, hs, hmem⟩ := ih (t.inter (d.axisCandidates ck.1 ck.2))
    refine ⟨s, hs, fun i => ?_⟩
    rw [hmem i]
    have hint : i ∈ List.inter t (d.axisCandidates ck.1 ck.2) ↔
        i ∈ t ∧ i ∈ d.axisCandidates ck.1 ck.2 := List.mem_inter_iff
    rw [hint]
    constructor
    · rintro ⟨⟨h1, h2⟩, h3⟩
      refine ⟨h1, fun ak hak => ?_⟩
      rcases List.mem_cons.mp hak with rfl | hak
      · exact h2
      · exact h3 ak hak
    · rintro ⟨h1, h2⟩
      exact ⟨⟨h1, h2 ck (by simp)⟩, fun ak hak => h2 ak (by simp [hak])⟩

/-- Characterization of `_candidate`'s axis-intersection set for a
non-empty probe point. -/
theorem candidateSet_spec {Q : Type} (d : VertexDict Q) (k : ℚ) (rest : List ℚ) :
    ∃ s, d.candidateSet (k :: rest) = some s ∧
      ∀ i, i ∈ s ↔ ∀ ak ∈ (k :: rest : Point).enum, i ∈ d.axisCandidates ak.1 ak.2 := by
  obtain ⟨s, hs, hmem⟩ := candidate_foldl_some d (rest.enumFrom 1) (d.axisCandidates 0 k)
  refine ⟨s, ?_, fun i => ?_⟩
  · unfold VertexDict.candidateSet
    rw [List.enum_cons, List.foldl_cons]
    exact hs
  · rw [hmem i, List.enum_cons]
    simp only [List.mem_cons]
    constructor
    · rintro ⟨h1, h2⟩ ak hak
      rcases hak with rfl | hak
      · exact h1
      · exact h2 ak hak
    · intro h
      exact ⟨h (0, k) (Or.inl rfl), fun ak hak => h ak (Or.inr hak)⟩

/-- The live scan of `_candidate`, generalized over an invariant of its
accumulator: a returned candidate satisfies the invariant and is live. -/
theorem firstLive_spec (live : Nat → Bool) (P : Nat → Prop) :
    ∀ (s : KeySet) (acc : Option Nat),
      (∀ x ∈ s, live x = true → P x) →
      (∀ b, acc = some b → P b ∧ live b = true) →
      ∀ c, s.foldl
          (fun acc c =>
            if live c then
              match acc with
              | none => some c
              | some b => some (min b c)
            else acc) acc = some c →
        P c ∧ live c = true := by
  intro s
  induction s with
  | nil =>
    intro acc hP hacc c hc
    exact hacc c hc
  | cons x rest ih =>
    intro acc hP hacc c hc
    rw [List.foldl_cons] at hc
    by_cases hlx : live x = true
    · rw [if_pos hlx] at hc
      rcases acc with _ | b
      · exact ih (some x) (fun y hy => hP y (by simp [hy]))
          (fun b hb => by
            injection hb with hb
            subst hb
            exact ⟨hP x (by simp) hlx, hlx⟩) c hc
      · refine ih (some (min b x)) (fun y hy => hP y (by simp [hy])) ?_ c hc
        intro b2 hb2
        injection hb2 with hb2
        subst hb2
        rw [Nat.min_def]
        by_cases hcase : b ≤ x
        · rw [if_pos hcase]
          exact hacc b rfl
        · rw [if_neg hcase]
          exact ⟨hP x (by simp) hlx, hlx⟩
    · rw [if_neg hlx] at hc
      exact ih acc (fun y hy => hP y (by simp [hy])) hacc c hc

/-- The live scan finds something when a live element exists. -/
theorem firstLive_isSome (live : Nat → Bool) :
    ∀ (s : KeySet) (acc : Option Nat),
      ((∃ x ∈ s, live x = true) ∨ acc.isSome = true) →
      (s.foldl
        (fun acc c =>
          if live c then
            match acc with
            | none => some c
            | some b => some (min b c)
          else acc) acc).isSome = true := by
  intro s
  induction s with
  | nil =>
    intro acc h
    rcases h with ⟨x, hx, _⟩ | h
    · cases hx
    · exact h
  | cons x rest ih =>
    intro acc h
    rw [List.foldl_cons]
    by_cases hlx : live x = true
    · rw [if_pos hlx]
      rcases acc with _ | b
      · exact ih (some x) (Or.inr rfl)
      · exact ih (some (min b x)) (Or.inr rfl)
    · rw [if_neg hlx]
      refine ih acc ?_
      rcases h with ⟨y, hy, hly⟩ | h
      · rcases List.mem_cons.mp hy with rfl | hy
        · exact absurd hly hlx
        · exact Or.inl ⟨y, hy, hly⟩
      · exact Or.inr h

/-! ### The registration invariant

After `ZoneManager.lookup` mints key 0 for the first zone of a fresh
manager, its corner dictionary is in the state described by `RegState`:
`ins` lists the corners that opened their own entries (in insertion
order), every entry is live with value `{0}`, and each axis table holds
exactly the coordinates of those points at that axis, sorted. -/

structure RegState (d : VertexDict KeySet) (ins : List Point) : Prop where
  hrtol : d.rtol = defaultRtol
  hatol : d.atol = defaultAtol
  hkeys : d.keys = ins.map some
  hvalues : d.values = List.replicate ins.length (some [0])
  hlut : ∀ a e, e ∈ d.lutGet a ↔
    ∃ i, i < ins.length ∧ a < (ins.getD i []).length ∧
      e = (i, (ins.getD i []).getD a 0)
  hsorted : ∀ a, ValSorted (d.lutGet a)

/-- A fresh dictionary with default tolerances satisfies the invariant
with no entries. -/
theorem regState_empty : RegState (VertexDict.mkEmpty KeySet defaultRtol defaultAtol) [] := by
  refine ⟨rfl, rfl, rfl, rfl, fun a e => ?_, fun a => ?_⟩
  · simp [VertexDict.lutGet, VertexDict.mkEmpty]
  · simp [VertexDict.lutGet, VertexDict.mkEmpty, ValSorted]

/-- Indexing a `map some` list. -/
theorem map_some_getD (ins : List Point) (i : Nat) :
    (ins.map some).getD i none = if i < ins.length then some (ins.getD i []) else none := by
  induction ins generalizing i with
  | nil => simp
  | cons p rest ih =>
    cases i with
    | zero => simp
    | succ j =>
      rw [List.map_cons, List.getD_cons_succ, List.getD_cons_succ, ih j]
      by_cases hj : j < rest.length
      · rw [if_pos hj, if_pos (by simpa using Nat.succ_lt_succ hj)]
      · rw [if_neg hj, if_neg (by simpa using fun hh => hj (Nat.lt_of_succ_lt_succ hh))]

/-- Indexing a replicate list. -/
theorem replicate_getD {α : Type} (x : α) (n i : Nat) (dflt : α) :
    (List.replicate n x).getD i dflt = if i < n then x else dflt := by
  induction n generalizing i with
  | zero => simp
  | succ m ih =>
    cases i with
    | zero => simp [List.replicate_succ]
    | succ j =>
      rw [List.replicate_succ, List.getD_cons_succ, ih j]
      by_cases hj : j < m
      · rw [if_pos hj, if_pos (by simpa using Nat.succ_lt_succ hj)]
      · rw [if_neg hj, if_neg (by simpa using fun hh => hj (Nat.lt_of_succ_lt_succ hh))]

/-- Under the invariant, liveness of an entry index is exactly being in
range. -/
theorem RegState.isLive_iff {d : VertexDict KeySet} {ins : List Point}
    (hreg : RegState d ins) (i : Nat) :
    d.isLive i = true ↔ i < ins.length := by
  unfold VertexDict.isLive
  rw [hreg.hkeys, map_some_getD]
  by_cases hi : i < ins.length
  · simp [hi]
  · simp [hi]

/-- Under the invariant, every in-range entry holds the value `{0}`. -/
theorem RegState.value_eq {d : VertexDict KeySet} {ins : List Point}
    (hreg : RegState d ins) (i : Nat) (hi : i < ins.length) :
    d.values.getD i none = some [0] := by
  rw [hreg.hvalues, replicate_getD, if_pos hi]

/-- Membership in one axis candidate set under the invariant: exactly
the in-range entries whose stored coordinate lies in the probe's
window. -/
theorem RegState.mem_axisCandidates {d : VertexDict KeySet} {ins : List Point}
    (hreg : RegState d ins) (a : Nat) (k : ℚ) (i : Nat) :
    i ∈ d.axisCandidates a k ↔
      i < ins.length ∧ a < (ins.getD i []).length ∧
        (d.bounds k).1 ≤ (ins.getD i []).getD a 0 ∧
        (ins.getD i []).getD a 0 < (d.bounds k).2 := by
  unfold VertexDict.axisCandidates VertexDict.axisSlice
  rw [List.mem_dedup, List.mem_map]
  constructor
  · rintro ⟨e, he, rfl⟩
    rw [mem_bisect_slice _ (hreg.hsorted a)] at he
    obtain ⟨hm, hb1, hb2⟩ := he
    obtain ⟨j, hj, hja, hje⟩ := (hreg.hlut a e).mp hm
    subst hje
    exact ⟨hj, hja, hb1, hb2⟩
  · rintro ⟨h1, h2, h3, h4⟩
    refine ⟨(i, (ins.getD i []).getD a 0), ?_, rfl⟩
    rw [mem_bisect_slice _ (hreg.hsorted a)]
    exact ⟨(hreg.hlut a _).mpr ⟨i, h1, h2, rfl⟩, h3, h4⟩

/-- Membership in `enum` as index-plus-value. -/
theorem mem_enum_iff (q : List ℚ) (ak : Nat × ℚ) :
    ak ∈ q.enum ↔ ak.1 < q.length ∧ ak.2 = q.getD ak.1 0 := by
  have haux : ∀ (off : Nat) (l : List ℚ) (e : Nat × ℚ),
      e ∈ l.enumFrom off ↔
        off ≤ e.1 ∧ e.1 < off + l.length ∧ e.2 = l.getD (e.1 - off) 0 := by
    intro off l
    induction l generalizing off with
    | nil =>
      intro e
      simp only [List.enumFrom_nil, List.not_mem_nil, false_iff, List.length_nil,
        Nat.add_zero]
      rintro ⟨h1, h2, _⟩
      omega
    | cons x t ihl =>
      intro e
      rw [List.enumFrom_cons, List.mem_cons, ihl (off + 1)]
      constructor
      · rintro (rfl | ⟨h1, h2, h3⟩)
        · simp
        · refine ⟨by omega, by simp; omega, ?_⟩
          rw [show e.1 - off = (e.1 - (off + 1)) + 1 from by omega, List.getD_cons_succ]
          exact h3
      · rintro ⟨h1, h2, h3⟩
        by_cases he : e.1 = off
        · left
          have : e.2 = x := by
            rw [he] at h3
            simpa using h3
          obtain ⟨e1, e2⟩ := e
          simp only at he this
          rw [he, this]
        · right
          refine ⟨by omega, by simp at h2 ⊢; omega, ?_⟩
          rw [show e.1 - off = (e.1 - (off + 1)) + 1 from by omega, List.getD_cons_succ] at h3
          exact h3
  have h0 := haux 0 q ak
  have henum : q.enum = q.enumFrom 0 := rfl
  rw [henum]
  simpa using h0

/-- Indexing the left part of an append. -/
theorem getD_append_left {α : Type} (l l2 : List α) (i : Nat) (dflt : α)
    (h : i < l.length) : (l ++ l2).getD i dflt = l.getD i dflt := by
  induction l generalizing i with
  | nil => cases h
  | cons x t ih =>
    cases i with
    | zero => rfl
    | succ j => exact ih j (Nat.lt_of_succ_lt_succ h)

/-- Indexing the appended singleton. -/
theorem getD_append_singleton {α : Type} (l : List α) (x : α) (dflt : α) :
    (l ++ [x]).getD l.length dflt = x := by
  induction l with
  | nil => rfl
  | cons y t ih => simp [ih]

/-- An in-range `getD` is a member. -/
theorem getD_mem {α : Type} (l : List α) (i : Nat) (dflt : α) (h : i < l.length) :
    l.getD i dflt ∈ l := by
  induction l generalizing i with
  | nil => cases h
  | cons x t ih =>
    cases i with
    | zero => simp
    | succ j => exact List.mem_cons_of_mem _ (ih j (Nat.lt_of_succ_lt_succ h))

/-- A candidate returned by `_candidate` is always live. -/
theorem VertexDict.candidate_some_live {Q : Type} (d : VertexDict Q) (q : Point)
    (c : Nat) (h : d.candidate q = some c) : d.isLive c = true := by
  unfold VertexDict.candidate at h
  rcases hcs : d.candidateSet q with _ | s
  · rw [hcs] at h
    cases h
  · rw [hcs] at h
    dsimp only at h
    unfold KeySet.firstLive at h
    exact (firstLive_spec (fun c => d.isLive c) (fun _ => True) s none
      (fun _ _ _ => trivial) (fun b hb => by cases hb) c h).2

/-- Under the invariant, a probe whose window misses every entry on some
axis finds no candidate. -/
theorem RegState.candidate_none {d : VertexDict KeySet} {ins : List Point}
    (hreg : RegState d ins) (q : Point)
    (hexc : ∀ i, i < ins.length →
      ∃ a, a < q.length ∧ ¬(i ∈ d.axisCandidates a (q.getD a 0))) :
    d.candidate q = none := by
  rcases q with _ | ⟨k, rest⟩
  · rfl
  · obtain ⟨s, hs, hmem⟩ := candidateSet_spec d k rest
    rcases hc : d.candidate (k :: rest) with _ | c
    · rfl
    · exfalso
      have hc2 := hc
      unfold VertexDict.candidate at hc2
      rw [hs] at hc2
      dsimp only at hc2
      unfold KeySet.firstLive at hc2
      obtain ⟨hcmem, hclive⟩ := firstLive_spec (fun x => d.isLive x) (fun x => x ∈ s)
        s none (fun x hx _ => hx) (fun b hb => by cases hb) c hc2
      have hclt : c < ins.length := (hreg.isLive_iff c).mp hclive
      obtain ⟨a, ha, hnot⟩ := hexc c hclt
      exact hnot ((hmem c).mp hcmem (a, (k :: rest).getD a 0)
        ((mem_enum_iff _ _).mpr ⟨ha, rfl⟩))

/-- Under the invariant, a probe whose window contains some in-range
entry on every axis finds a live candidate (also in range). -/
theorem RegState.candidate_finds {d : VertexDict KeySet} {ins : List Point}
    (hreg : RegState d ins) (k : ℚ) (rest : List ℚ) (j : Nat)
    (hj : j < ins.length)
    (hall : ∀ a, a < (k :: rest : List ℚ).length →
      j ∈ d.axisCandidates a ((k :: rest : List ℚ).getD a 0)) :
    ∃ c, d.candidate (k :: rest) = some c ∧ c < ins.length := by
  obtain ⟨s, hs, hmem⟩ := candidateSet_spec d k rest
  have hjs : j ∈ s := by
    rw [hmem j]
    intro ak hak
    obtain ⟨h1, h2⟩ := (mem_enum_iff _ ak).mp hak
    have := hall ak.1 h1
    rw [← h2] at this
    exact this
  have hjliv : d.isLive j = true := (hreg.isLive_iff j).mpr hj
  have hsome := firstLive_isSome (fun x => d.isLive x) s none (Or.inl ⟨j, hjs, hjliv⟩)
  rcases hcc : d.candidate (k :: rest) with _ | c
  · exfalso
    unfold VertexDict.candidate at hcc
    rw [hs] at hcc
    dsimp only at hcc
    unfold KeySet.firstLive at hcc
    rw [hcc] at hsome
    cases hsome
  · exact ⟨c, rfl, (hreg.isLive_iff c).mp (VertexDict.candidate_some_live d _ c hcc)⟩

/-- Under the invariant, `get(pt, set())` returns `{0}` when a candidate
exists. -/
theorem RegState.getD_of_candidate_some {d : VertexDict KeySet} {ins : List Point}
    (hreg : RegState d ins) (q : Point) (c : Nat) (hc : d.candidate q = some c) :
    d.getD q [] = [0] := by
  have hlt := (hreg.isLive_iff c).mp (VertexDict.candidate_some_live d q c hc)
  unfold VertexDict.getD
  rw [hc]
  dsimp only
  rw [hreg.value_eq c hlt]
  rfl

/-- The `get(pt, default)` read falls back to the default when the
candidate lookup raises. -/
theorem VertexDict.getD_of_candidate_none {Q : Type} (d : VertexDict Q) (q : Point)
    (dflt : Q) (hc : d.candidate q = none) : d.getD q dflt = dflt := by
  unfold VertexDict.getD
  rw [hc]

/-- Overwriting a replicate cell with the same value is a no-op. -/
theorem set_replicate_self {α : Type} (n c : Nat) (x : α) :
    (List.replicate n x).set c x = List.replicate n x := by
  induction n generalizing c with
  | zero => simp
  | succ m ih =>
    cases c with
    | zero => simp [List.replicate_succ]
    | succ j => simp [List.replicate_succ, ih j]

/-- A corner that matches an existing entry leaves the dictionary
unchanged (its key set already holds 0). -/
theorem regStep_found {d : VertexDict KeySet} {ins : List Point}
    (hreg : RegState d ins) (p : Point) (c : Nat) (hc : d.candidate p = some c) :
    ZoneManager.registerCorner d p 0 = d := by
  unfold ZoneManager.registerCorner
  rw [hc]
  dsimp only
  have hlt := (hreg.isLive_iff c).mp (VertexDict.candidate_some_live d p c hc)
  rw [hreg.value_eq c hlt]
  have hpush : KeySet.push ((some ([0] : KeySet)).getD []) 0 = [0] := by
    simp [KeySet.push]
  rw [hpush, hreg.hvalues, set_replicate_self, ← hreg.hvalues]

/-- A corner that matches nothing opens a fresh entry with key set
`{0}`, extending the invariant. -/
theorem regStep_new {d : VertexDict KeySet} {ins : List Point}
    (hreg : RegState d ins) (p : Point) (hc : d.candidate p = none) :
    RegState (ZoneManager.registerCorner d p 0) (ins ++ [p]) := by
  unfold ZoneManager.registerCorner
  rw [hc]
  have hvlen : d.values.length = ins.length := by
    rw [hreg.hvalues]
    simp
  refine ⟨hreg.hrtol, hreg.hatol, ?_, ?_, ?_, ?_⟩
  · show d.keys ++ [some p] = (ins ++ [p]).map some
    rw [hreg.hkeys, List.map_append]
    rfl
  · show d.values ++ [some [0]] = List.replicate (ins ++ [p]).length (some [0])
    rw [hreg.hvalues, List.length_append]
    simp [List.replicate_add]
  · intro a e
    have hl := insertNew_lutGet d p ([0] : KeySet) a
    show e ∈ (d.insertNew p [0]).lutGet a ↔ _
    rw [hl, hvlen]
    by_cases hap : a < p.length
    · rw [if_pos hap, mem_insortRight]
      rw [hreg.hlut a e]
      constructor
      · rintro (rfl | ⟨i, hi, hia, rfl⟩)
        · refine ⟨ins.length, by simp, ?_, ?_⟩
          · rw [getD_append_singleton]
            exact hap
          · rw [getD_append_singleton]
        · refine ⟨i, by simp; omega, ?_, ?_⟩
          · rw [getD_append_left ins [p] i [] hi]
            exact hia
          · rw [getD_append_left ins [p] i [] hi]
      · rintro ⟨i, hi, hia, rfl⟩
        rw [List.length_append, List.length_singleton] at hi
        by_cases hilt : i < ins.length
        · right
          refine ⟨i, hilt, ?_, ?_⟩
          · rw [getD_append_left ins [p] i [] hilt] at hia
            exact hia
          · rw [getD_append_left ins [p] i [] hilt]
        · left
          have : i = ins.length := by omega
          subst this
          rw [getD_append_singleton]
    · rw [if_neg hap]
      rw [hreg.hlut a e]
      constructor
      · rintro ⟨i, hi, hia, rfl⟩
        refine ⟨i, by simp; omega, ?_, ?_⟩
        · rw [getD_append_left ins [p] i [] hi]
          exact hia
        · rw [getD_append_left ins [p] i [] hi]
      · rintro ⟨i, hi, hia, rfl⟩
        rw [List.length_append, List.length_singleton] at hi
        by_cases hilt : i < ins.length
        · refine ⟨i, hilt, ?_, ?_⟩
          · rw [getD_append_left ins [p] i [] hilt] at hia
            exact hia
          · rw [getD_append_left ins [p] i [] hilt]
        · exfalso
          have : i = ins.length := by omega
          subst this
          rw [getD_append_singleton] at hia
          exact hap hia
  · intro a
    have hl := insertNew_lutGet d p ([0] : KeySet) a
    show ValSorted ((d.insertNew p [0]).lutGet a)
    rw [hl]
    by_cases hap : a < p.length
    · rw [if_pos hap]
      exact insortRight_sorted _ _ (hreg.hsorted a)
    · rw [if_neg hap]
      exact hreg.hsorted a

/-- Registering a list of corners extends the invariant by a subset of
those corners (the ones that opened entries, in order). -/
theorem regFold_subset : ∀ (ps : List Point) (d : VertexDict KeySet) (ins : List Point),
    RegState d ins →
    ∃ ins2, RegState (ps.foldl (fun d pt => ZoneManager.registerCorner d pt 0) d)
        (ins ++ ins2) ∧ ∀ p ∈ ins2, p ∈ ps := by
  intro ps
  induction ps with
  | nil =>
    intro d ins h
    exact ⟨[], by simpa using h, by simp⟩
  | cons p rest ih =>
    intro d ins h
    rw [List.foldl_cons]
    rcases hc : d.candidate p with _ | c
    · obtain ⟨ins2, hst, hsub⟩ := ih _ _ (regStep_new h p hc)
      rw [List.append_assoc] at hst
      refine ⟨[p] ++ ins2, hst, ?_⟩
      intro x hx
      rcases List.mem_append.mp hx with hx | hx
      · rcases List.mem_singleton.mp hx with rfl
        simp
      · exact List.mem_cons_of_mem _ (hsub x hx)
    · rw [regStep_found h p c hc]
      obtain ⟨ins2, hst, hsub⟩ := ih _ _ h
      exact ⟨ins2, hst, fun x hx => List.mem_cons_of_mem _ (hsub x hx)⟩

/-- Separation of a probe point from a stored point beyond the
max-magnitude tolerance, on some axis below `n`. -/
def SepMax (p r : Point) (n : Nat) : Prop :=
  ∃ a, a < n ∧
    defaultAtol + defaultRtol * max |p.getD a 0| |r.getD a 0| < |p.getD a 0 - r.getD a 0|

/-- Componentwise closeness of two points within the strict
min-magnitude tolerance on every axis below `n`. -/
def ClosePts (p q : Point) (n : Nat) : Prop :=
  ∀ a, a < n →
    |p.getD a 0 - q.getD a 0| < defaultAtol + defaultRtol * min |p.getD a 0| |q.getD a 0|

/-- Closeness is symmetric. -/
theorem ClosePts.symm {p q : Point} {n : Nat} (h : ClosePts p q n) : ClosePts q p n := by
  intro a ha
  rw [abs_sub_comm, min_comm]
  exact h a ha

/-- An entry separated from the probe on some axis is not a candidate on
that axis. -/
theorem RegState.excluded_of_far {d : VertexDict KeySet} {ins : List Point}
    (hreg : RegState d ins) (i : Nat) (_hi : i < ins.length) (a : Nat) (k : ℚ)
    (hfar : defaultAtol + defaultRtol * max |k| |(ins.getD i []).getD a 0|
      < |k - (ins.getD i []).getD a 0|) :
    ¬(i ∈ d.axisCandidates a k) := by
  intro hmem
  obtain ⟨_, _, h3, h4⟩ := (hreg.mem_axisCandidates a k i).mp hmem
  rcases VertexDict.not_mem_bounds_of_far d hreg.hrtol hreg.hatol k
    ((ins.getD i []).getD a 0) hfar with h | h
  · exact absurd h3 (not_le.mpr h)
  · exact absurd h4 (not_lt.mpr h)

/-- A probe separated from every stored entry finds no candidate. -/
theorem RegState.candidate_none_of_sep {d : VertexDict KeySet} {ins : List Point}
    {n : Nat} (hreg : RegState d ins) (p : Point) (hp : p.length = n)
    (hsep : ∀ r ∈ ins, SepMax p r n) :
    d.candidate p = none := by
  apply hreg.candidate_none
  intro i hi
  obtain ⟨a, ha, hfar⟩ := hsep (ins.getD i []) (getD_mem ins i [] hi)
  refine ⟨a, by rw [hp]; exact ha, hreg.excluded_of_far i hi a _ hfar⟩

/-- Pairwise-separated corners each open their own entry: registering
them extends the invariant by exactly the processed list. -/
theorem regFold_all_insert (n : Nat) :
    ∀ (ps : List Point) (d : VertexDict KeySet) (ins : List Point),
      RegState d ins →
      (∀ p ∈ ps, p.length = n) →
      (∀ p ∈ ps, ∀ r ∈ ins, SepMax p r n) →
      List.Pairwise (fun r p => SepMax p r n) ps →
      RegState (ps.foldl (fun d pt => ZoneManager.registerCorner d pt 0) d) (ins ++ ps) := by
  intro ps
  induction ps with
  | nil =>
    intro d ins h _ _ _
    simpa using h
  | cons p rest ih =>
    intro d ins h hdim hsep hpw
    rw [List.foldl_cons]
    have hc : d.candidate p = none :=
      RegState.candidate_none_of_sep h p (hdim p (by simp)) (fun r hr => hsep p (by simp) r hr)
    have hstep := regStep_new h p hc
    have hrec := ih (ZoneManager.registerCorner d p 0) (ins ++ [p]) hstep
      (fun q hq => hdim q (by simp [hq]))
      (fun q hq r hr => by
        rcases List.mem_append.mp hr with hr | hr
        · exact hsep q (by simp [hq]) r hr
        · rcases List.mem_singleton.mp hr with rfl
          exact (List.pairwise_cons.mp hpw).1 q hq)
      (List.pairwise_cons.mp hpw).2
    rw [List.append_assoc] at hrec
    exact hrec

/-- Membership gives an index. -/
theorem mem_exists_getD {α : Type} (l : List α) (x : α) (dflt : α) (h : x ∈ l) :
    ∃ i, i < l.length ∧ l.getD i dflt = x := by
  -- index of the first occurrence
  induction l with
  | nil => cases h
  | cons y t ih =>
    rcases List.mem_cons.mp h with rfl | h
    · exact ⟨0, by simp, rfl⟩
    · obtain ⟨i, hi, hgd⟩ := ih h
      exact ⟨i + 1, by simpa using Nat.succ_lt_succ hi, by simpa using hgd⟩

/-- On a fresh dictionary every candidate lookup raises. -/
theorem candidate_mkEmpty (pt : Point) :
    (VertexDict.mkEmpty KeySet defaultRtol defaultAtol).candidate pt = none :=
  regState_empty.candidate_none pt (fun i hi => absurd hi (by simp))

/-- Folding set intersection from the empty set stays empty. -/
theorem foldl_inter_from_nil (l : List KeySet) :
    l.foldl (fun x y => x.inter y) [] = [] := by
  induction l with
  | nil => rfl
  | cons x rest ih =>
    rw [List.foldl_cons]
    show rest.foldl (fun x y => x.inter y) (List.inter [] x) = []
    exact ih

/-- Folding set intersection hits the empty set and stays there. -/
theorem foldl_inter_nil_mem : ∀ (l : List KeySet) (acc : KeySet),
    ([] ∈ l ∨ acc = []) → l.foldl (fun x y => x.inter y) acc = [] := by
  intro l
  induction l with
  | nil =>
    rintro acc (h | rfl)
    · cases h
    · rfl
  | cons x rest ih =>
    rintro acc (h | rfl)
    · rcases List.mem_cons.mp h with rfl | h
      · rw [List.foldl_cons]
        refine ih _ (Or.inr ?_)
        show List.inter acc [] = []
        simp [List.inter]
      · rw [List.foldl_cons]
        exact ih _ (Or.inl h)
    · rw [List.foldl_cons]
      refine ih _ (Or.inr ?_)
      rfl

/-- Folding set intersection over copies of `{0}` from `{0}` stays
`{0}`. -/
theorem foldl_inter_zeroes : ∀ (l : List KeySet), (∀ x ∈ l, x = [0]) →
    l.foldl (fun x y => x.inter y) [0] = [0] := by
  intro l
  induction l with
  | nil =>
    intro _
    rfl
  | cons x rest ih =>
    intro hx
    rw [List.foldl_cons, hx x (by simp)]
    show rest.foldl (fun x y => x.inter y) (List.inter [0] [0]) = [0]
    have : List.inter ([0] : KeySet) [0] = [0] := by simp [List.inter]
    rw [this]
    exact ih (fun y hy => hx y (by simp [hy]))

/-- Looking up the first zone of a fresh manager mints global key 0 and
registers every corner. -/
theorem lookup_fresh_mints (z : Zone) (hk : z.global_key = none)
    (c : Point) (cs : List Point) (hcoords : z.coords = c :: cs) :
    ZoneManager.fresh.lookup z =
      some ({ z with global_key := some 0 },
        ⟨z.coords.foldl (fun d pt => ZoneManager.registerCorner d pt 0)
            (VertexDict.mkEmpty KeySet defaultRtol defaultAtol),
          [(0, z.shape)]⟩) := by
  have hck : ZoneManager.fresh.cornerKeys z.coords = some [] := by
    unfold ZoneManager.cornerKeys
    rw [hcoords, List.map_cons]
    have hgd : ∀ pt : Point, ZoneManager.fresh.lut.getD pt [] = [] := fun pt =>
      VertexDict.getD_of_candidate_none _ pt [] (candidate_mkEmpty pt)
    rw [hgd c]
    dsimp only
    rw [foldl_inter_from_nil]
  unfold ZoneManager.lookup
  rw [hk]
  dsimp only
  rw [hck]
  dsimp only
  rw [if_neg (by simp)]
  rfl

/-- Looking up a later zone all of whose corners read the key set `{0}`
reuses global key 0 and leaves the manager unchanged. -/
theorem lookup_reuses {dreg : VertexDict KeySet} (sh : Shape) (z : Zone)
    (hk : z.global_key = none) (hsh : z.shape = sh)
    (c : Point) (cs : List Point) (hcoords : z.coords = c :: cs)
    (hall : ∀ q ∈ z.coords, dreg.getD q [] = [0]) :
    ZoneManager.lookup ⟨dreg, [(0, sh)]⟩ z =
      some ({ z with global_key := some 0 }, ⟨dreg, [(0, sh)]⟩) := by
  have hck : ZoneManager.cornerKeys ⟨dreg, [(0, sh)]⟩ z.coords = some [0] := by
    unfold ZoneManager.cornerKeys
    rw [hcoords, List.map_cons]
    show some (((cs.map (fun pt => dreg.getD pt [])).foldl (fun x y => x.inter y)
      (dreg.getD c []))) = some [0]
    rw [hall c (by rw [hcoords]; simp)]
    rw [foldl_inter_zeroes]
    intro x hx
    obtain ⟨pt, hpt, rfl⟩ := List.mem_map.mp hx
    exact hall pt (by rw [hcoords]; simp [hpt])
  unfold ZoneManager.lookup
  rw [hk]
  dsimp only
  rw [hck]
  dsimp only
  rw [if_neg (by simp)]
  rw [if_pos (by show shapesFind [(0, sh)] 0 = some z.shape; rw [hsh]; rfl)]

/-- Looking up a later zone one of whose corners reads the empty key set
mints the next key and registers the corners under it. -/
theorem lookup_mints_next {dreg : VertexDict KeySet} (sh : Shape) (z : Zone)
    (hk : z.global_key = none)
    (c : Point) (cs : List Point) (hcoords : z.coords = c :: cs)
    (hq : ∃ q ∈ z.coords, dreg.getD q [] = []) :
    ZoneManager.lookup ⟨dreg, [(0, sh)]⟩ z =
      some ({ z with global_key := some 1 },
        ⟨z.coords.foldl (fun d pt => ZoneManager.registerCorner d pt 1) dreg,
          [(0, sh), (1, z.shape)]⟩) := by
  have hck : ZoneManager.cornerKeys ⟨dreg, [(0, sh)]⟩ z.coords = some [] := by
    unfold ZoneManager.cornerKeys
    rw [hcoords, List.map_cons]
    obtain ⟨q, hqm, hqd⟩ := hq
    rw [hcoords] at hqm
    dsimp only
    rcases List.mem_cons.mp hqm with rfl | hqm
    · rw [hqd]
      rw [foldl_inter_nil_mem _ _ (Or.inr rfl)]
    · rw [foldl_inter_nil_mem _ _ (Or.inl ?_)]
      rw [List.mem_map]
      exact ⟨q, hqm, hqd⟩
  unfold ZoneManager.lookup
  rw [hk]
  dsimp only
  rw [hck]
  dsimp only
  rw [if_neg (by simp)]
  rfl

/-- Draining exactly two zones, given the two lookup results. -/
theorem lookupMany_pair (m : ZoneManager) (z1 z2 z1s z2s : Zone) (m1 m2 : ZoneManager)
    (h1 : m.lookup z1 = some (z1s, m1)) (h2 : m1.lookup z2 = some (z2s, m2)) :
    m.lookupMany [z1, z2] = some ([z1s, z2s], m2) := by
  unfold ZoneManager.lookupMany
  rw [h1]
  dsimp only
  unfold ZoneManager.lookupMany
  rw [h2]
  dsimp only
  unfold ZoneManager.lookupMany
  dsimp only

/-- Right-membership projection of a pointwise relation. -/
theorem forall₂_mem_right {R : Point → Point → Prop} :
    ∀ {l1 l2 : List Point}, List.Forall₂ R l1 l2 → ∀ q ∈ l2, ∃ p ∈ l1, R p q := by
  intro l1 l2 h
  induction h with
  | nil =>
    intro q hq
    cases hq
  | @cons p q t1 t2 hr _ ih =>
    intro w hw
    rcases List.mem_cons.mp hw with rfl | hw
    · exact ⟨p, by simp, hr⟩
    · obtain ⟨x, hx, hrx⟩ := ih w hw
      exact ⟨x, by simp [hx], hrx⟩

/-- Left-membership projection of a pointwise relation. -/
theorem forall₂_mem_left {R : Point → Point → Prop} :
    ∀ {l1 l2 : List Point}, List.Forall₂ R l1 l2 → ∀ p ∈ l1, ∃ q ∈ l2, R p q := by
  intro l1 l2 h
  induction h with
  | nil =>
    intro p hp
    cases hp
  | @cons p q t1 t2 hr _ ih =>
    intro w hw
    rcases List.mem_cons.mp hw with rfl | hw
    · exact ⟨q, by simp, hr⟩
    · obtain ⟨x, hx, hrx⟩ := ih w hw
      exact ⟨x, by simp [hx], hrx⟩

/-- Core of the amended C1: with the first zone's corners pairwise
well-separated and every corner of the second zone strictly
min-tolerance-close to some corner of the first, draining the pair from
a fresh manager assigns global key 0 to both. -/
theorem pair_lookup_same_key (za zb : Zone) (n : Nat)
    (hsh : zb.shape = za.shape)
    (hka : za.global_key = none) (hkb : zb.global_key = none)
    (ca : Point) (csa : List Point) (hcasplit : za.coords = ca :: csa)
    (cb : Point) (csb : List Point) (hcbsplit : zb.coords = cb :: csb)
    (hdima : ∀ p ∈ za.coords, p.length = n)
    (hdimb : ∀ q ∈ zb.coords, q.length = n)
    (hn : 0 < n)
    (hsepa : List.Pairwise (fun r p => SepMax p r n) za.coords)
    (hclose : ∀ q ∈ zb.coords, ∃ p ∈ za.coords, ClosePts p q n) :
    ZoneManager.fresh.lookupMany [za, zb] =
      some ([{ za with global_key := some 0 }, { zb with global_key := some 0 }],
        ⟨za.coords.foldl (fun d pt => ZoneManager.registerCorner d pt 0)
            (VertexDict.mkEmpty KeySet defaultRtol defaultAtol),
          [(0, za.shape)]⟩) := by
  have h1 := lookup_fresh_mints za hka ca csa hcasplit
  have hreg : RegState (za.coords.foldl (fun d pt => ZoneManager.registerCorner d pt 0)
      (VertexDict.mkEmpty KeySet defaultRtol defaultAtol)) za.coords := by
    have := regFold_all_insert n za.coords
      (VertexDict.mkEmpty KeySet defaultRtol defaultAtol) [] regState_empty hdima
      (fun p _ r hr => absurd hr (List.not_mem_nil r)) hsepa
    simpa using this
  have hall : ∀ q ∈ zb.coords,
      (za.coords.foldl (fun d pt => ZoneManager.registerCorner d pt 0)
        (VertexDict.mkEmpty KeySet defaultRtol defaultAtol)).getD q [] = [0] := by
    intro q hqm
    obtain ⟨p, hpm, hclo⟩ := hclose q hqm
    obtain ⟨j, hj, hgd⟩ := mem_exists_getD za.coords p [] hpm
    have hqn : q.length = n := hdimb q hqm
    rcases q with _ | ⟨qk, qrest⟩
    · exfalso
      rw [List.length_nil] at hqn
      omega
    · have hall_axes : ∀ a, a < (qk :: qrest : List ℚ).length →
          j ∈ VertexDict.axisCandidates
            (za.coords.foldl (fun d pt => ZoneManager.registerCorner d pt 0)
              (VertexDict.mkEmpty KeySet defaultRtol defaultAtol))
            a ((qk :: qrest : List ℚ).getD a 0) := by
        intro a ha
        rw [hreg.mem_axisCandidates]
        have han : a < n := by rw [← hqn]; exact ha
        refine ⟨hj, ?_, ?_⟩
        · rw [hgd, hdima p hpm]
          exact han
        · have hcl := hclo a han
          rw [abs_sub_comm, min_comm] at hcl
          have := VertexDict.mem_bounds_of_close _ hreg.hrtol hreg.hatol
            ((qk :: qrest : List ℚ).getD a 0) (p.getD a 0) hcl
          rw [hgd]
          exact this
      obtain ⟨c, hcand, hclt⟩ := hreg.candidate_finds qk qrest j hj hall_axes
      exact hreg.getD_of_candidate_some _ c hcand
  have h2 := lookup_reuses za.shape zb hkb hsh cb csb hcbsplit hall
  exact lookupMany_pair _ _ _ _ _ _ _ h1 h2

/-- Corner lists of the two-cube scenario of the claim: unit cubes sharing
the face `x = 1`, four corners exactly coincident. -/
def cube1 : List Point :=
  [[0,0,0],[1,0,0],[0,1,0],[1,1,0],[0,0,1],[1,0,1],[0,1,1],[1,1,1]]

/-- Second cube of the scenario, spanning `1 ≤ x ≤ 2`. -/
def cube2 : List Point :=
  [[1,0,0],[2,0,0],[1,1,0],[2,1,0],[1,0,1],[2,0,1],[1,1,1],[2,1,1]]

/-- C2 (amended): draining two hexahedral unkeyed zones through a fresh
KeyZones manager, where some corner of the second zone is separated beyond
tolerance from every corner of the first on some axis, yields exactly TWO
global keys — 0 for the first zone and 1 for the second — and the shape
table records Hexahedron under both keys.  (The zone count, not the corner
count, drives key minting: `key = len(self.shapes)` in
`ZoneManager.lookup`, so two zones can never produce five keys.) -/
theorem c2_amended_two_zone_drain (z1 z2 : Zone) (n : Nat)
    (hs1 : z1.shape = Shape.Hexahedron) (hs2 : z2.shape = Shape.Hexahedron)
    (hk1 : z1.global_key = none) (hk2 : z2.global_key = none)
    (c1p : Point) (cs1 : List Point) (hc1 : z1.coords = c1p :: cs1)
    (c2p : Point) (cs2 : List Point) (hc2 : z2.coords = c2p :: cs2)
    (hq : ∃ q ∈ z2.coords, q.length = n ∧ ∀ r ∈ z1.coords, SepMax q r n) :
    ∃ m : ZoneManager, keyZonesDrain [z1, z2] =
        some ([{ z1 with global_key := some 0 },
               { z2 with global_key := some 1 }], m) ∧
      m.shapes = [(0, Shape.Hexahedron), (1, Shape.Hexahedron)] := by
  have h1 := lookup_fresh_mints z1 hk1 c1p cs1 hc1
  obtain ⟨ins2, hreg0, hsub⟩ := regFold_subset z1.coords
    (VertexDict.mkEmpty KeySet defaultRtol defaultAtol) [] regState_empty
  have hreg : RegState (z1.coords.foldl (fun d pt => ZoneManager.registerCorner d pt 0)
      (VertexDict.mkEmpty KeySet defaultRtol defaultAtol)) ins2 := by
    simpa using hreg0
  obtain ⟨q, hqm, hqn, hqsep⟩ := hq
  have hcand : (z1.coords.foldl (fun d pt => ZoneManager.registerCorner d pt 0)
      (VertexDict.mkEmpty KeySet defaultRtol defaultAtol)).candidate q = none :=
    hreg.candidate_none_of_sep q hqn (fun r hr => hqsep r (hsub r hr))
  have hqd := VertexDict.getD_of_candidate_none
    (z1.coords.foldl (fun d pt => ZoneManager.registerCorner d pt 0)
      (VertexDict.mkEmpty KeySet defaultRtol defaultAtol)) q [] hcand
  have h2 := lookup_mints_next z1.shape z2 hk2 c2p cs2 hc2 ⟨q, hqm, hqd⟩
  refine ⟨_, lookupMany_pair _ _ _ _ _ _ _ h1 h2, ?_⟩
  show [(0, z1.shape), (1, z2.shape)] = [(0, Shape.Hexahedron), (1, Shape.Hexahedron)]
  rw [hs1, hs2]

/-- Witness for C2 (amended) on the concrete two-cube scenario. -/
theorem c2_amended_two_zone_drain_witness :
    ∃ m : ZoneManager, keyZonesDrain [⟨Shape.Hexahedron, cube1, "left", none⟩,
        ⟨Shape.Hexahedron, cube2, "right", none⟩] =
      some ([⟨Shape.Hexahedron, cube1, "left", some 0⟩,
             ⟨Shape.Hexahedron, cube2, "right", some 1⟩], m) ∧
      m.shapes = [(0, Shape.Hexahedron), (1, Shape.Hexahedron)] :=
  c2_amended_two_zone_drain
    ⟨Shape.Hexahedron, cube1, "left", none⟩
    ⟨Shape.Hexahedron, cube2, "right", none⟩ 3
    rfl rfl rfl rfl
    [0,0,0] [[1,0,0],[0,1,0],[1,1,0],[0,0,1],[1,0,1],[0,1,1],[1,1,1]] rfl
    [1,0,0] [[2,0,0],[1,1,0],[2,1,0],[1,0,1],[2,0,1],[1,1,1],[2,1,1]] rfl
    ⟨[2,0,0], by with_unfolding_all decide, rfl, by
      intro r hr
      fin_cases hr <;> exact ⟨0, by norm_num, by with_unfolding_all decide⟩⟩

set_option maxRecDepth 40000 in
/-- Counterexample to C2: two hexahedral zones with 8 corners each sharing
a face of 4 exactly-coincident corners produce 2 global keys (0 and 1),
not 5; even the corner-entry count of the vertex dictionary is 12
(8 + 8 − 4), not 5.  Every recorded shape is Hexahedron, as claimed. -/
theorem c2_counterexample :
    (cube1.inter cube2).length = 4 ∧
    ((keyZonesDrain [⟨Shape.Hexahedron, cube1, "left", none⟩,
        ⟨Shape.Hexahedron, cube2, "right", none⟩]).map
      (fun r => (r.1.map Zone.global_key, r.2.shapes.length, r.2.shapes,
        r.2.lut.len))) =
      some ([some 0, some 1], 2,
        [(0, Shape.Hexahedron), (1, Shape.Hexahedron)], 12) ∧
    (2 : Nat) ≠ 5 ∧ (12 : Nat) ≠ 5 := by
  refine ⟨by with_unfolding_all decide, by with_unfolding_all decide,
    by decide, by decide⟩

/-- C1 (amended): two unkeyed zones of the same shape whose corresponding
corners are componentwise STRICTLY within the min-magnitude tolerance
|a − b| < atol + rtol·min(|a|, |b|) — and whose corners are pairwise
separated beyond the max-magnitude tolerance within each zone — are
assigned the same global key 0 by a fresh manager in either lookup order.
(The claim's max-magnitude bound |a − b| ≤ atol + rtol·max(|a|, |b|) is
too weak: the per-axis window of `VertexDict._bounds` scales with the
STORED coordinate, so which of the two values was stored first matters
inside the band between the min- and max-magnitude tolerances; see the
counterexample.) -/
theorem c1_amended_same_key_both_orders (za zb : Zone) (n : Nat) (hn : 0 < n)
    (hsh : zb.shape = za.shape)
    (hka : za.global_key = none) (hkb : zb.global_key = none)
    (hdima : ∀ p ∈ za.coords, p.length = n)
    (hdimb : ∀ q ∈ zb.coords, q.length = n)
    (hsepa : List.Pairwise (fun r p => SepMax p r n) za.coords)
    (hsepb : List.Pairwise (fun r p => SepMax p r n) zb.coords)
    (hf2 : List.Forall₂ (fun p q => ClosePts p q n) za.coords zb.coords)
    (ca : Point) (csa : List Point) (hcasplit : za.coords = ca :: csa) :
    (∃ m : ZoneManager, ZoneManager.fresh.lookupMany [za, zb] =
        some ([{ za with global_key := some 0 },
               { zb with global_key := some 0 }], m)) ∧
    (∃ m : ZoneManager, ZoneManager.fresh.lookupMany [zb, za] =
        some ([{ zb with global_key := some 0 },
               { za with global_key := some 0 }], m)) := by
  have hlen : za.coords.length = zb.coords.length := hf2.length_eq
  obtain ⟨cb, csb, hzb⟩ : ∃ cb csb, zb.coords = cb :: csb := by
    rcases h : zb.coords with _ | ⟨x, xs⟩
    · rw [hcasplit, h] at hlen
      simp at hlen
    · exact ⟨x, xs, rfl⟩
  constructor
  · exact ⟨_, pair_lookup_same_key za zb n hsh hka hkb ca csa hcasplit cb csb hzb
      hdima hdimb hn hsepa (forall₂_mem_right hf2)⟩
  · refine ⟨_, pair_lookup_same_key zb za n hsh.symm hkb hka cb csb hzb ca csa hcasplit
      hdimb hdima hn hsepb ?_⟩
    intro p hp
    obtain ⟨q, hq, hclo⟩ := forall₂_mem_left hf2 p hp
    exact ⟨q, hq, hclo.symm⟩

/-- Witness for C1 (amended): two concrete Line zones, corners
[0], [5] versus [atol/2], [5], get global key 0 in both drain orders. -/
theorem c1_amended_same_key_both_orders_witness :
    (∃ m : ZoneManager, ZoneManager.fresh.lookupMany
        [⟨Shape.Line, [[0],[5]], "za", none⟩,
         ⟨Shape.Line, [[1/200000000],[5]], "zb", none⟩] =
      some ([⟨Shape.Line, [[0],[5]], "za", some 0⟩,
             ⟨Shape.Line, [[1/200000000],[5]], "zb", some 0⟩], m)) ∧
    (∃ m : ZoneManager, ZoneManager.fresh.lookupMany
        [⟨Shape.Line, [[1/200000000],[5]], "zb", none⟩,
         ⟨Shape.Line, [[0],[5]], "za", none⟩] =
      some ([⟨Shape.Line, [[1/200000000],[5]], "zb", some 0⟩,
             ⟨Shape.Line, [[0],[5]], "za", some 0⟩], m)) :=
  c1_amended_same_key_both_orders
    ⟨Shape.Line, [[0],[5]], "za", none⟩
    ⟨Shape.Line, [[1/200000000],[5]], "zb", none⟩ 1
    (by decide) rfl rfl rfl
    (by intro p hp; fin_cases hp <;> rfl)
    (by intro q hq; fin_cases hq <;> rfl)
    (by
      refine List.Pairwise.cons ?_ (List.pairwise_singleton _ _)
      intro p hp
      fin_cases hp
      exact ⟨0, by norm_num, by with_unfolding_all decide⟩)
    (by
      refine List.Pairwise.cons ?_ (List.pairwise_singleton _ _)
      intro p hp
      fin_cases hp
      exact ⟨0, by norm_num, by with_unfolding_all decide⟩)
    (by
      refine List.Forall₂.cons ?_ (List.Forall₂.cons ?_ List.Forall₂.nil)
      · intro a ha
        have ha0 : a = 0 := by omega
        subst ha0
        with_unfolding_all decide
      · intro a ha
        have ha0 : a = 0 := by omega
        subst ha0
        with_unfolding_all decide)
    [0] [[5]] rfl

set_option maxRecDepth 8000 in
/-- Counterexample to C1 as stated: the Line zones with corners
[1 + 100101·10⁻¹⁰], [5] and [1], [5] have the same shape and corresponding
corners componentwise within the claimed tolerance
|a − b| ≤ atol + rtol·max(|a|, |b|) at the default tolerances, yet a fresh
manager gives both zones key 0 when the first zone is drained first and
keys 0, 1 when the second is drained first: the assignment is
order-dependent, and in the second order the keys differ. -/
theorem c1_counterexample :
    (|(1 + 100101/10000000000 : ℚ) - 1| ≤
        defaultAtol + defaultRtol * max |(1 + 100101/10000000000 : ℚ)| |(1 : ℚ)|) ∧
    (|(5 : ℚ) - 5| ≤ defaultAtol + defaultRtol * max |(5 : ℚ)| |(5 : ℚ)|) ∧
    ((keyZonesDrain [⟨Shape.Line, [[1 + 100101/10000000000], [5]], "zc1", none⟩,
        ⟨Shape.Line, [[1], [5]], "zc2", none⟩]).map
      (fun r => r.1.map Zone.global_key) = some [some 0, some 0]) ∧
    ((keyZonesDrain [⟨Shape.Line, [[1], [5]], "zc2", none⟩,
        ⟨Shape.Line, [[1 + 100101/10000000000], [5]], "zc1", none⟩]).map
      (fun r => r.1.map Zone.global_key) = some [some 0, some 1]) :=
  ⟨by with_unfolding_all decide, by with_unfolding_all decide,
   by with_unfolding_all decide, by with_unfolding_all decide⟩

end Siso
